import Mathlib

/-!
Verification of the MerkleStorage engine (src/storage/src/merkle_storage.rs).

Shallow embedding conventions:
* Machine bytes are `Nat` values (< 256 in practice); `u64` big-endian
  serialization is `be64`, which truncates with `% 256` per digit exactly
  as the Rust casts do.
* The Blake2b-32 digest of the Rust code is modelled by the framing byte
  stream that the code feeds into the hasher (`hash_blob` / `hash_tree` /
  `hash_commit` reproduce the exact byte framing of the source, including
  the `len as u8` truncation for segment names).  The digest compression is
  omitted, so a hash is the full feed; genuine feed collisions of the source
  are preserved (the empty blob and the empty tree hash the same bytes in
  the source, and they are equal feeds here).
* Rust `String` path segments, authors and messages are their UTF-8 byte
  lists (`List Nat`); `String::len`, `into_bytes` and `Ord` on `String` are
  exactly byte length, identity and lexicographic byte order.
* `im::OrdMap<String, Node>` is a strictly ascending association list with
  ordered insert/remove; iteration order (used by `hash_tree`) is the list
  order.
* `HashMap<EntryHash, Entry>` (the staging area) is an association list
  where insert conses in front and lookup takes the first match, which is
  observationally the map overwrite semantics.
* Methods that take `&mut self` become functions `MerkleStorage → ... →
  Except MerkleError α × MerkleStorage`; mutations performed before an
  error persist in the returned state, as they do through `&mut self`.
-/

set_option maxHeartbeats 1000000
set_option maxRecDepth 20000
set_option synthInstance.maxHeartbeats 400000

deriving instance DecidableEq for Except

namespace Merkle

abbrev ContextValue := List Nat
abbrev EntryHash := List Nat
abbrev Segment := List Nat
abbrev ContextKey := List Segment

/-- Big-endian serialization of a `u64` (`to_be_bytes` in the source);
`% 256` per digit makes the `u64` wrap-around explicit. -/
def be64 (n : Nat) : List Nat :=
  [n / 2 ^ 56 % 256, n / 2 ^ 48 % 256, n / 2 ^ 40 % 256, n / 2 ^ 32 % 256,
   n / 2 ^ 24 % 256, n / 2 ^ 16 % 256, n / 2 ^ 8 % 256, n % 256]

/-- Lexicographic byte order, the `Ord` instance of Rust `String` /
`Vec<u8>` restricted to the byte view of strings. -/
def bytesLt : List Nat → List Nat → Bool
  | [], [] => false
  | [], _ :: _ => true
  | _ :: _, [] => false
  | a :: as, b :: bs => if a < b then true else if b < a then false else bytesLt as bs

inductive NodeKind where
  | NonLeaf
  | Leaf
deriving DecidableEq

structure Node where
  node_kind : NodeKind
  entry_hash : EntryHash
deriving DecidableEq

/-- Tree = `OrdMap<String, Node>`: a strictly ascending association list. -/
abbrev Tree := List (Segment × Node)

structure Commit where
  parent_commit_hash : Option EntryHash
  root_hash : EntryHash
  time : Nat
  author : List Nat
  message : List Nat
deriving DecidableEq

inductive Entry where
  | Tree (t : Tree)
  | Blob (v : ContextValue)
  | Commit (c : Commit)
deriving DecidableEq

inductive MerkleError where
  | DBError
  | SerializationError
  | CommitRootNotFound
  | MissingAncestorCommit
  | ValueIsNotABlob (key : ContextKey)
  | FoundUnexpectedStructure (sought : String) (found : String)
  | EntryNotFound (hash : EntryHash)
  | ValueNotFound (key : ContextKey)
  | KeyEmpty
  | HashConversionError
  | RecursionLimit
deriving DecidableEq

/-- Association lookup: first match wins (most recently inserted entry of a
cons-front map, i.e. `HashMap` overwrite semantics). -/
def assocLookup (l : List (EntryHash × Entry)) (h : EntryHash) : Option Entry :=
  match l with
  | [] => none
  | (k, v) :: rest => if k = h then some v else assocLookup rest h

/-- Ordered lookup in an `OrdMap` association list. -/
def treeGet (t : Tree) (k : Segment) : Option Node :=
  match t with
  | [] => none
  | (k', n') :: rest => if k' = k then some n' else treeGet rest k

/-- Ordered insert of an `OrdMap`: keeps keys strictly ascending, replaces
an existing binding. -/
def treeInsert (t : Tree) (k : Segment) (n : Node) : Tree :=
  match t with
  | [] => [(k, n)]
  | (k', n') :: rest =>
    if bytesLt k k' then (k, n) :: (k', n') :: rest
    else if k = k' then (k, n) :: rest
    else (k', n') :: treeInsert rest k n

/-- Ordered remove of an `OrdMap`. -/
def treeRemove (t : Tree) (k : Segment) : Tree :=
  match t with
  | [] => []
  | (k', n') :: rest => if k' = k then rest else (k', n') :: treeRemove rest k

/-- Kind tag of `encode_irmin_node_kind`. -/
def kindTag : NodeKind → List Nat
  | NodeKind.NonLeaf => [0, 0, 0, 0, 0, 0, 0, 0]
  | NodeKind.Leaf => [255, 0, 0, 0, 0, 0, 0, 0]

/-- Per-element byte feed of `hash_tree`: kind tag, segment length as one
byte (`k.len() as u8`), segment bytes, the constant 32 as `u64`, and the
child hash. -/
def treeBody : Tree → List Nat
  | [] => []
  | (k, n) :: rest =>
    kindTag n.node_kind ++ [k.length % 256] ++ k ++ be64 32 ++ n.entry_hash ++ treeBody rest

/-- Feed of `MerkleStorage::hash_tree`. -/
def hash_tree (t : Tree) : EntryHash :=
  be64 t.length ++ treeBody t

/-- Feed of `MerkleStorage::hash_blob`. -/
def hash_blob (v : ContextValue) : EntryHash :=
  be64 v.length ++ v

/-- Parent framing of `hash_commit`: `0u64` for no parent, else `1u64`,
the parent length as `u64`, and the parent hash. -/
def parentFeed : Option EntryHash → List Nat
  | none => be64 0
  | some p => be64 1 ++ be64 p.length ++ p

/-- Feed of `MerkleStorage::hash_commit`. -/
def hash_commit (c : Commit) : EntryHash :=
  be64 32 ++ c.root_hash ++ parentFeed c.parent_commit_hash ++ be64 c.time ++
    be64 c.author.length ++ c.author ++ be64 c.message.length ++ c.message

/-- Dispatch of `MerkleStorage::hash_entry`. -/
def hash_entry : Entry → EntryHash
  | Entry.Commit c => hash_commit c
  | Entry.Tree t => hash_tree t
  | Entry.Blob b => hash_blob b

/-- Modelled from the spec: the backing byte-keyed KV store
(`crate::kv_store`, which is not under src/) is an associative byte store;
entries are held directly (the bincode codec is a bijection per the spec,
section 4.2, so it is elided), and `apply_batch` applies a list of put
calls atomically, later puts taking precedence. -/
structure MerkleStorage where
  current_stage_tree : Option Tree
  db : List (EntryHash × Entry)
  staged : List (EntryHash × Entry)
  last_commit_hash : Option EntryHash
deriving DecidableEq

namespace MerkleStorage

/-- State of `MerkleStorage::new`. -/
def new : MerkleStorage :=
  { current_stage_tree := none, db := [], staged := [], last_commit_hash := none }

/-- `MerkleStorage::put_to_staging_area`. -/
def put_to_staging_area (s : MerkleStorage) (key : EntryHash) (value : Entry) : MerkleStorage :=
  { s with staged := (key, value) :: s.staged }

/-- `MerkleStorage::get_entry`: staging area first, then the DB. -/
def get_entry (s : MerkleStorage) (hash : EntryHash) : Except MerkleError Entry :=
  match assocLookup s.staged hash with
  | some entry => .ok entry
  | none =>
    match assocLookup s.db hash with
    | some entry => .ok entry
    | none => .error (MerkleError.EntryNotFound hash)

/-- `MerkleStorage::get_tree`. -/
def get_tree (s : MerkleStorage) (hash : EntryHash) : Except MerkleError Tree :=
  match get_entry s hash with
  | .ok (Entry.Tree t) => .ok t
  | .ok (Entry.Blob _) => .error (MerkleError.FoundUnexpectedStructure "tree" "blob")
  | .ok (Entry.Commit _) => .error (MerkleError.FoundUnexpectedStructure "tree" "commit")
  | .error e => .error e

/-- `MerkleStorage::get_commit`. -/
def get_commit (s : MerkleStorage) (hash : EntryHash) : Except MerkleError Commit :=
  match get_entry s hash with
  | .ok (Entry.Commit c) => .ok c
  | .ok (Entry.Tree _) => .error (MerkleError.FoundUnexpectedStructure "commit" "tree")
  | .ok (Entry.Blob _) => .error (MerkleError.FoundUnexpectedStructure "commit" "blob")
  | .error e => .error e

/-- `MerkleStorage::get_non_leaf`. -/
def get_non_leaf (hash : EntryHash) : Node :=
  { node_kind := NodeKind.NonLeaf, entry_hash := hash }

/-- `MerkleStorage::find_tree`: descend by path; absent segments and blobs
along the way yield an empty tree, a commit is a structure error. -/
def find_tree (s : MerkleStorage) (root : Tree) : List Segment → Except MerkleError Tree
  | [] => .ok root
  | k :: ks =>
    match treeGet root k with
    | none => .ok []
    | some child_node =>
      match get_entry s child_node.entry_hash with
      | .ok (Entry.Tree t) => find_tree s t ks
      | .ok (Entry.Blob _) => .ok []
      | .ok (Entry.Commit _) => .error (MerkleError.FoundUnexpectedStructure "tree" "commit")
      | .error e => .error e

/-- `MerkleStorage::get_staged_root`: returns the current staging tree, or
initializes and stages the empty genesis tree (without assigning
`current_stage_tree`, as in the source). -/
def get_staged_root (s : MerkleStorage) : Tree × MerkleStorage :=
  match s.current_stage_tree with
  | none => ([], put_to_staging_area s (hash_tree []) (Entry.Tree []))
  | some tree => (tree, s)

/-- Worker of `compute_new_root_with_change`, structurally recursive on the
reversed key: the source pops `key.last()` and recurses on `key[..len-1]`,
which is exactly head recursion on the reversed key. -/
def compute_new_root_rev (s : MerkleStorage) (root : Tree) :
    List Segment → Option Node → Except MerkleError EntryHash × MerkleStorage
  | [], some n => (.ok n.entry_hash, s)
  | [], none => (.ok (hash_tree root), s)
  | last :: revPath, new_node =>
    match find_tree s root revPath.reverse with
    | .error e => (.error e, s)
    | .ok tree0 =>
      let tree := match new_node with
        | none => treeRemove tree0 last
        | some n => treeInsert tree0 last n
      if tree.isEmpty then
        compute_new_root_rev s root revPath none
      else
        compute_new_root_rev
          (put_to_staging_area s (hash_tree tree) (Entry.Tree tree))
          root revPath (some (get_non_leaf (hash_tree tree)))

/-- `MerkleStorage::compute_new_root_with_change`. -/
def compute_new_root_with_change (s : MerkleStorage) (root : Tree) (key : List Segment)
    (new_node : Option Node) : Except MerkleError EntryHash × MerkleStorage :=
  compute_new_root_rev s root key.reverse new_node

/-- `MerkleStorage::_set` (the timing statistics of the source are
observability only and are dropped). -/
def _set (s : MerkleStorage) (root : Tree) (key : ContextKey) (value : ContextValue) :
    Except MerkleError EntryHash × MerkleStorage :=
  let blob_hash := hash_blob value
  let s1 := put_to_staging_area s blob_hash (Entry.Blob value)
  compute_new_root_with_change s1 root key
    (some { node_kind := NodeKind.Leaf, entry_hash := blob_hash })

/-- `MerkleStorage::set`. -/
def set (s : MerkleStorage) (key : ContextKey) (value : ContextValue) :
    Except MerkleError Unit × MerkleStorage :=
  let rs := get_staged_root s
  match _set rs.2 rs.1 key value with
  | (.error e, s2) => (.error e, s2)
  | (.ok new_root_hash, s2) =>
    match get_tree s2 new_root_hash with
    | .error e => (.error e, s2)
    | .ok t => (.ok (), { s2 with current_stage_tree := some t })

/-- `MerkleStorage::_delete`. -/
def _delete (s : MerkleStorage) (root : Tree) (key : ContextKey) :
    Except MerkleError EntryHash × MerkleStorage :=
  match key with
  | [] => (.ok (hash_tree root), s)
  | _ :: _ => compute_new_root_with_change s root key none

/-- `MerkleStorage::delete`. -/
def delete (s : MerkleStorage) (key : ContextKey) :
    Except MerkleError Unit × MerkleStorage :=
  let rs := get_staged_root s
  match _delete rs.2 rs.1 key with
  | (.error e, s2) => (.error e, s2)
  | (.ok new_root_hash, s2) =>
    match get_tree s2 new_root_hash with
    | .error e => (.error e, s2)
    | .ok t => (.ok (), { s2 with current_stage_tree := some t })

/-- `MerkleStorage::_copy`. -/
def _copy (s : MerkleStorage) (root : Tree) (from_key to_key : ContextKey) :
    Except MerkleError EntryHash × MerkleStorage :=
  match find_tree s root from_key with
  | .error e => (.error e, s)
  | .ok source_tree =>
    compute_new_root_with_change s root to_key (some (get_non_leaf (hash_tree source_tree)))

/-- `MerkleStorage::copy`. -/
def copy (s : MerkleStorage) (from_key to_key : ContextKey) :
    Except MerkleError Unit × MerkleStorage :=
  let rs := get_staged_root s
  match _copy rs.2 rs.1 from_key to_key with
  | (.error e, s2) => (.error e, s2)
  | (.ok new_root_hash, s2) =>
    match get_tree s2 new_root_hash with
    | .error e => (.error e, s2)
    | .ok t => (.ok (), { s2 with current_stage_tree := some t })

/-- `MerkleStorage::get_from_tree`: pops the final segment as the file
name, walks the rest with `find_tree`, and reads the blob. -/
def get_from_tree (s : MerkleStorage) (root_hash : EntryHash) (key : ContextKey) :
    Except MerkleError ContextValue :=
  match key.reverse with
  | [] => .error MerkleError.KeyEmpty
  | file :: revPath =>
    match get_tree s root_hash with
    | .error e => .error e
    | .ok root =>
      match find_tree s root revPath.reverse with
      | .error e => .error e
      | .ok node_tree =>
        match treeGet node_tree file with
        | none => .error (MerkleError.ValueNotFound key)
        | some node =>
          match get_entry s node.entry_hash with
          | .ok (Entry.Blob blob) => .ok blob
          | .ok _ => .error (MerkleError.ValueIsNotABlob key)
          | .error e => .error e

/-- `MerkleStorage::get`: reads from the current staged root (and, like the
source, may stage the genesis tree through `get_staged_root`). -/
def get (s : MerkleStorage) (key : ContextKey) :
    Except MerkleError ContextValue × MerkleStorage :=
  let rs := get_staged_root s
  (get_from_tree rs.2 (hash_tree rs.1) key, rs.2)

/-- `MerkleStorage::get_history`. -/
def get_history (s : MerkleStorage) (commit_hash : EntryHash) (key : ContextKey) :
    Except MerkleError ContextValue :=
  match get_commit s commit_hash with
  | .error e => .error e
  | .ok c => get_from_tree s c.root_hash key

/-- `MerkleStorage::checkout`. -/
def checkout (s : MerkleStorage) (context_hash : EntryHash) :
    Except MerkleError Unit × MerkleStorage :=
  match get_commit s context_hash with
  | .error e => (.error e, s)
  | .ok c =>
    match get_tree s c.root_hash with
    | .error e => (.error e, s)
    | .ok t =>
        (.ok (), { s with current_stage_tree := some t,
                          last_commit_hash := some context_hash,
                          staged := [] })

/-- Child loop of `get_entries_recursively`: recurse only into children
whose hash is present in the staging map; `step` is the sweep at the
remaining recursion depth. -/
def sweepChildren (staged : List (EntryHash × Entry))
    (step : Entry → List (EntryHash × Entry) → Except MerkleError (List (EntryHash × Entry))) :
    List (Segment × Node) → List (EntryHash × Entry) →
    Except MerkleError (List (EntryHash × Entry))
  | [], batch => .ok batch
  | (_, n) :: rest, batch =>
    match assocLookup staged n.entry_hash with
    | none => sweepChildren staged step rest batch
    | some e =>
      match step e batch with
      | .error err => .error err
      | .ok batch2 => sweepChildren staged step rest batch2

/-- `MerkleStorage::get_entries_recursively`: preorder sweep that appends
`(hash(entry), entry)` to the batch and recurses into tree children found
in the staging area and into commit roots.  The fuel argument makes the
unbounded Rust recursion total; exhausting it yields `RecursionLimit`,
which never happens on hash-consistent states within the fuel that
`persist_staged_entry_to_db` supplies. -/
def get_entries_recursively (s : MerkleStorage) :
    Nat → Entry → List (EntryHash × Entry) → Except MerkleError (List (EntryHash × Entry))
  | 0, _, _ => .error MerkleError.RecursionLimit
  | Nat.succ fuel, entry, batch =>
    let batch1 := batch ++ [(hash_entry entry, entry)]
    match entry with
    | Entry.Blob _ => .ok batch1
    | Entry.Tree t => sweepChildren s.staged (get_entries_recursively s fuel) t batch1
    | Entry.Commit c =>
      match get_entry s c.root_hash with
      | .error err => .error err
      | .ok e => get_entries_recursively s fuel e batch1

/-- Modelled from the spec: `apply_batch` of the backing store
(`crate::kv_store`, not under src/) atomically writes every pair of the
batch; later puts take precedence on lookup. -/
def apply_batch (s : MerkleStorage) (batch : List (EntryHash × Entry)) : MerkleStorage :=
  { s with db := batch.foldl (fun d p => (p.1, p.2) :: d) s.db }

/-- `MerkleStorage::persist_staged_entry_to_db`: build the batch, then
apply it atomically.  The fuel passed to the sweep exceeds the possible
depth of any hash-consistent entry graph. -/
def persist_staged_entry_to_db (s : MerkleStorage) (entry : Entry) :
    Except MerkleError Unit × MerkleStorage :=
  match get_entries_recursively s (s.staged.length + s.db.length + 2) entry [] with
  | .error err => (.error err, s)
  | .ok batch => (.ok (), apply_batch s batch)

/-- `MerkleStorage::commit`. -/
def commit (s : MerkleStorage) (time : Nat) (author message : List Nat) :
    Except MerkleError EntryHash × MerkleStorage :=
  let rs := get_staged_root s
  let staged_root_hash := hash_tree rs.1
  let new_commit : Commit :=
    { parent_commit_hash := rs.2.last_commit_hash, root_hash := staged_root_hash,
      time := time, author := author, message := message }
  let new_commit_hash := hash_commit new_commit
  let s2 := put_to_staging_area rs.2 new_commit_hash (Entry.Commit new_commit)
  match persist_staged_entry_to_db s2 (Entry.Commit new_commit) with
  | (.error e, s3) => (.error e, s3)
  | (.ok _, s3) =>
    (.ok new_commit_hash, { s3 with staged := [], last_commit_hash := some new_commit_hash })

end MerkleStorage

open MerkleStorage

/-- One navigation step: resolve a node to its tree in storage and look up
the next segment. -/
def descendStep (s : MerkleStorage) (n : Node) (k : Segment) : Except MerkleError Node :=
  match get_entry s n.entry_hash with
  | .ok (Entry.Tree t) =>
    match treeGet t k with
    | some n2 => .ok n2
    | none => .error (MerkleError.ValueNotFound [])
  | .ok _ => .error (MerkleError.FoundUnexpectedStructure "tree" "other")
  | .error e => .error e

/-- Iterated `descendStep` along a path. -/
def descendNode (s : MerkleStorage) (n : Node) : List Segment → Except MerkleError Node
  | [] => .ok n
  | k :: ks =>
    match descendStep s n k with
    | .ok n2 => descendNode s n2 ks
    | .error e => .error e

/-- Sortedness invariant of `OrdMap`: keys strictly ascending. -/
def TreeSorted (t : Tree) : Prop :=
  List.Pairwise (fun p q => bytesLt p.1 q.1 = true) t

/-- Crafted state with a dangling NonLeaf child, used to exercise error
paths of delete/copy. -/
def errState1 : MerkleStorage :=
  { current_stage_tree := some [([97], { node_kind := NodeKind.NonLeaf, entry_hash := [5] })],
    db := [], staged := [], last_commit_hash := none }

/-- Crafted state with an unresolvable root tree, used to exercise the
error path of commit. -/
def errState2 : MerkleStorage :=
  { current_stage_tree := some [([97], { node_kind := NodeKind.Leaf, entry_hash := [5] })],
    db := [], staged := [], last_commit_hash := none }

/-- Scenario state for the checkout claim: set ["a"]=[1]; commit; set
["a"]=[3]; commit; set ["a"]=[8] staged. -/
def c3_s1 : MerkleStorage := (MerkleStorage.set MerkleStorage.new [[97]] [1]).2

/-- First commit of the checkout scenario. -/
def c3_c1 : Except MerkleError EntryHash × MerkleStorage := commit c3_s1 0 [] []

/-- Hash of the first commit of the checkout scenario. -/
def c3_c1h : EntryHash := c3_c1.1.toOption.getD []

/-- State after the second set of the checkout scenario. -/
def c3_s2 : MerkleStorage := (MerkleStorage.set c3_c1.2 [[97]] [3]).2

/-- Second commit of the checkout scenario. -/
def c3_c2 : Except MerkleError EntryHash × MerkleStorage := commit c3_s2 0 [] []

/-- State with the uncommitted staged edit ["a"]=[8]. -/
def c3_s3 : MerkleStorage := (MerkleStorage.set c3_c2.2 [[97]] [8]).2

/-- Base state of the revisit counterexample: set a/x = [1]; copy a to b,
so the subtree {x} is staged once but reachable through both a and b. -/
def c4_base : MerkleStorage :=
  (copy (MerkleStorage.set MerkleStorage.new [[97], [120]] [1]).2 [[97]] [[98]]).2

/-- Commit entry the engine would build over `c4_base`. -/
def c4_commitData : Commit :=
  ⟨c4_base.last_commit_hash, hash_tree (c4_base.current_stage_tree.getD []), 0, [], []⟩

/-- State with the commit entry staged, exactly as `commit` stages it
before the sweep. -/
def c4_state : MerkleStorage :=
  put_to_staging_area c4_base (hash_commit c4_commitData) (Entry.Commit c4_commitData)

/-- The batch the sweep builds from the staged commit of `c4_state`. -/
def c4_batch : Except MerkleError (List (EntryHash × Entry)) :=
  get_entries_recursively c4_state (c4_state.staged.length + c4_state.db.length + 2)
    (Entry.Commit c4_commitData) []

/-- Scenario of the history claim: set a/b/c = [2] on the empty store. -/
def c2_s1 : MerkleStorage := (MerkleStorage.set MerkleStorage.new [[97], [98], [99]] [2]).2

/-- First commit of the history scenario. -/
def c2_c1 : Except MerkleError EntryHash × MerkleStorage := commit c2_s1 0 [] []

/-- Hash of the first commit. -/
def c2_c1h : EntryHash := c2_c1.1.toOption.getD []

/-- State after deleting a/b/c (the only key). -/
def c2_s3 : MerkleStorage := (delete c2_c1.2 [[97], [98], [99]]).2

/-- Second commit of the history scenario. -/
def c2_c2 : Except MerkleError EntryHash × MerkleStorage := commit c2_s3 0 [] []

/-- Hash of the second commit. -/
def c2_c2h : EntryHash := c2_c2.1.toOption.getD []

/-- State with the sole key a = [1]. -/
def c8_x1 : MerkleStorage := (MerkleStorage.set MerkleStorage.new [[97]] [1]).2

/-- State after deleting the sole key a. -/
def c8_x2 : MerkleStorage := (delete c8_x1 [[97]]).2

/-- State with keys a = [1] and c = [2]. -/
def c8_w1 : MerkleStorage :=
  (MerkleStorage.set (MerkleStorage.set MerkleStorage.new [[97]] [1]).2 [[99]] [2]).2

/-- State after deleting the absent key a/b from `c8_w1`. -/
def c8_w2 : MerkleStorage := (delete c8_w1 [[97], [98]]).2

/-- Scenario of the copy claim: set a/b/c = [1] on the empty store. -/
def c7_u1 : MerkleStorage := (MerkleStorage.set MerkleStorage.new [[97], [98], [99]] [1]).2

/-- State after copy(a, z). -/
def c7_u2 : MerkleStorage := (copy c7_u1 [[97]] [[122]]).2

/-- Overlap counterexample base: set x/c = [1]. -/
def c7_z1 : MerkleStorage := (MerkleStorage.set MerkleStorage.new [[120], [99]] [1]).2

/-- State after copy(x, x/y), grafting the x subtree under itself. -/
def c7_z2 : MerkleStorage := (copy c7_z1 [[120]] [[120], [121]]).2

/-- Hash consistency of a state: every binding of the staging area and
the backing store maps a hash to an entry that hashes to it (the staging
invariant of the engine). -/
def StoreWF (s : MerkleStorage) : Prop :=
  (∀ p ∈ s.staged, hash_entry p.2 = p.1) ∧ (∀ p ∈ s.db, hash_entry p.2 = p.1)

/-- Collision freedom of a state: any two bindings of the staging area or
the backing store that share a hash bind the same entry (content
addressing without digest collisions). -/
def StoreConsistent (s : MerkleStorage) : Prop :=
  ∀ p ∈ s.staged ++ s.db, ∀ q ∈ s.staged ++ s.db, p.1 = q.1 → p.2 = q.2

instance storeWF_decidable (s : MerkleStorage) : Decidable (StoreWF s) :=
  inferInstanceAs (Decidable ((∀ p ∈ s.staged, hash_entry p.2 = p.1) ∧
    (∀ p ∈ s.db, hash_entry p.2 = p.1)))

instance storeConsistent_decidable (s : MerkleStorage) : Decidable (StoreConsistent s) :=
  inferInstanceAs (Decidable (∀ p ∈ s.staged ++ s.db, ∀ q ∈ s.staged ++ s.db,
    p.1 = q.1 → p.2 = q.2))

/-! ### Basic facts about the byte-level building blocks -/

theorem be64_length (n : Nat) : (be64 n).length = 8 := rfl

theorem assocLookup_append_of_ne (l1 l2 : List (EntryHash × Entry)) (h : EntryHash)
    (hne : ∀ p ∈ l1, p.1 ≠ h) : assocLookup (l1 ++ l2) h = assocLookup l2 h := by
  induction l1 with
  | nil => rfl
  | cons p rest ih =>
    have hp : p.1 ≠ h := hne p (List.mem_cons_self p rest)
    simp only [List.cons_append, assocLookup]
    rw [if_neg (by exact fun hc => hp (by cases p; exact hc))]
    exact ih (fun q hq => hne q (List.mem_cons_of_mem p hq))

theorem bytesLt_irrefl (a : List Nat) : bytesLt a a = false := by
  induction a with
  | nil => rfl
  | cons x xs ih => simp [bytesLt, ih]

theorem kindTag_length (k : NodeKind) : (kindTag k).length = 8 := by
  cases k <;> rfl

theorem treeGet_treeInsert_self (t : Tree) (k : Segment) (n : Node) :
    treeGet (treeInsert t k n) k = some n := by
  induction t with
  | nil => simp [treeInsert, treeGet]
  | cons p rest ih =>
    obtain ⟨k', n'⟩ := p
    by_cases hlt : bytesLt k k' = true
    · simp [treeInsert, hlt, treeGet]
    · by_cases heq : k = k'
      · subst heq
        simp [treeInsert, bytesLt_irrefl, treeGet]
      · have hne : k' ≠ k := fun hc => heq hc.symm
        simp [treeInsert, hlt, heq, treeGet, hne, ih]

theorem treeInsert_ne_nil (t : Tree) (k : Segment) (n : Node) : treeInsert t k n ≠ [] := by
  cases t with
  | nil => simp [treeInsert]
  | cons p rest =>
    obtain ⟨k', n'⟩ := p
    by_cases hlt : bytesLt k k' = true
    · simp [treeInsert, hlt]
    · by_cases heq : k = k'
      · subst heq
        simp [treeInsert, bytesLt_irrefl]
      · simp [treeInsert, hlt, heq]

theorem mem_treeInsert_self (t : Tree) (k : Segment) (n : Node) :
    (k, n) ∈ treeInsert t k n := by
  induction t with
  | nil => simp [treeInsert]
  | cons p rest ih =>
    obtain ⟨k', n'⟩ := p
    by_cases hlt : bytesLt k k' = true
    · simp [treeInsert, hlt]
    · by_cases heq : k = k'
      · subst heq
        simp [treeInsert, bytesLt_irrefl]
      · simp only [treeInsert, hlt, if_false, heq, if_neg]
        exact List.mem_cons_of_mem _ ih

theorem entry_hash_length_lt_treeBody (t : Tree) (k : Segment) (n : Node)
    (hmem : (k, n) ∈ t) : n.entry_hash.length < (treeBody t).length := by
  induction t with
  | nil => cases hmem
  | cons p rest ih =>
    obtain ⟨k', n'⟩ := p
    simp only [treeBody, List.length_append]
    rcases List.mem_cons.mp hmem with hhead | htail
    · injection hhead with h1 h2
      subst h1
      subst h2
      have hkt := kindTag_length n.node_kind
      simp [be64_length, hkt]
      omega
    · have := ih htail
      omega

theorem entry_hash_length_lt_hash_tree (t : Tree) (k : Segment) (n : Node)
    (hmem : (k, n) ∈ t) : n.entry_hash.length < (hash_tree t).length := by
  have h := entry_hash_length_lt_treeBody t k n hmem
  simp only [hash_tree, List.length_append, be64_length]
  omega

/-! ### Reading functions depend only on the staging map and the DB -/

theorem get_entry_congr (s1 s2 : MerkleStorage) (hst : s1.staged = s2.staged)
    (hdb : s1.db = s2.db) (h : EntryHash) : get_entry s1 h = get_entry s2 h := by
  simp [get_entry, hst, hdb]

theorem find_tree_congr (s1 s2 : MerkleStorage) (hst : s1.staged = s2.staged)
    (hdb : s1.db = s2.db) : ∀ (key : List Segment) (root : Tree),
    find_tree s1 root key = find_tree s2 root key := by
  intro key
  induction key with
  | nil => intro root; rfl
  | cons k ks ih =>
    intro root
    simp only [find_tree]
    cases treeGet root k with
    | none => rfl
    | some child =>
      dsimp only
      rw [get_entry_congr s1 s2 hst hdb]
      cases get_entry s2 child.entry_hash with
      | error e => rfl
      | ok e =>
        cases e with
        | Tree t => dsimp only; exact ih t
        | Blob v => rfl
        | Commit c => rfl

/-! ### Navigation chains (proof device linking tree edits to the read path) -/

theorem descendNode_append (s : MerkleStorage) (p q : List Segment) :
    ∀ n, descendNode s n (p ++ q) =
      match descendNode s n p with
      | .ok n2 => descendNode s n2 q
      | .error e => .error e := by
  induction p with
  | nil => intro n; rfl
  | cons k ks ih =>
    intro n
    simp only [List.cons_append, descendNode]
    cases descendStep s n k with
    | ok n2 => exact ih n2
    | error e => rfl

theorem descendNode_congr (s1 s2 : MerkleStorage) (hst : s1.staged = s2.staged)
    (hdb : s1.db = s2.db) : ∀ (p : List Segment) (n : Node),
    descendNode s1 n p = descendNode s2 n p := by
  intro p
  induction p with
  | nil => intro n; rfl
  | cons k ks ih =>
    intro n
    simp only [descendNode, descendStep]
    rw [get_entry_congr s1 s2 hst hdb]
    cases get_entry s2 n.entry_hash with
    | error e => rfl
    | ok e =>
      cases e with
      | Tree t =>
        dsimp only
        cases treeGet t k with
        | some n2 => dsimp only; exact ih n2
        | none => rfl
      | Blob v => rfl
      | Commit c => rfl

theorem find_tree_of_descend (s : MerkleStorage) :
    ∀ (path : List Segment) (n nf : Node) (t0 tf : Tree),
    descendNode s n path = .ok nf →
    get_entry s n.entry_hash = .ok (Entry.Tree t0) →
    get_entry s nf.entry_hash = .ok (Entry.Tree tf) →
    find_tree s t0 path = .ok tf := by
  intro path
  induction path with
  | nil =>
    intro n nf t0 tf hdesc h0 hf
    simp only [descendNode] at hdesc
    injection hdesc with hnf
    subst hnf
    have ht : Except.ok (ε := MerkleError) (Entry.Tree t0) = .ok (Entry.Tree tf) :=
      h0.symm.trans hf
    injection ht with ht2
    injection ht2 with ht3
    subst ht3
    rfl
  | cons k ks ih =>
    intro n nf t0 tf hdesc h0 hf
    simp only [descendNode, descendStep] at hdesc
    rw [h0] at hdesc
    dsimp only at hdesc
    cases htg : treeGet t0 k with
    | none =>
      rw [htg] at hdesc
      dsimp only at hdesc
      cases hdesc
    | some n2 =>
      rw [htg] at hdesc
      dsimp only at hdesc
      simp only [find_tree, htg]
      cases ks with
      | nil =>
        simp only [descendNode] at hdesc
        injection hdesc with hnf
        subst hnf
        rw [hf]
        rfl
      | cons k2 ks2 =>
        cases hge : get_entry s n2.entry_hash with
        | error e =>
          simp only [descendNode, descendStep] at hdesc
          rw [hge] at hdesc
          dsimp only at hdesc
          cases hdesc
        | ok e =>
          cases e with
          | Tree t2 =>
            dsimp only
            exact ih n2 nf t2 tf hdesc hge hf
          | Blob v =>
            simp only [descendNode, descendStep] at hdesc
            rw [hge] at hdesc
            dsimp only at hdesc
            cases hdesc
          | Commit c =>
            simp only [descendNode, descendStep] at hdesc
            rw [hge] at hdesc
            dsimp only at hdesc
            cases hdesc

/-! ### Structure of `compute_new_root_with_change` runs -/

theorem compute_new_root_rev_frame :
    ∀ (revKey : List Segment) (s : MerkleStorage) (root : Tree) (nn : Option Node),
    (compute_new_root_rev s root revKey nn).2.current_stage_tree = s.current_stage_tree ∧
    (compute_new_root_rev s root revKey nn).2.db = s.db ∧
    (compute_new_root_rev s root revKey nn).2.last_commit_hash = s.last_commit_hash ∧
    ∃ new, (compute_new_root_rev s root revKey nn).2.staged = new ++ s.staged := by
  intro revKey
  induction revKey with
  | nil =>
    intro s root nn
    cases nn with
    | none => exact ⟨rfl, rfl, rfl, [], rfl⟩
    | some n => exact ⟨rfl, rfl, rfl, [], rfl⟩
  | cons last revPath ih =>
    intro s root nn
    simp only [compute_new_root_rev]
    cases hft : find_tree s root revPath.reverse with
    | error e => exact ⟨rfl, rfl, rfl, [], rfl⟩
    | ok tree0 =>
      dsimp only
      cases nn with
      | none =>
        by_cases hEmpty : (treeRemove tree0 last).isEmpty = true
        · rw [if_pos hEmpty]
          exact ih s root none
        · rw [if_neg hEmpty]
          obtain ⟨h1, h2, h3, new, h4⟩ := ih
            (put_to_staging_area s (hash_tree (treeRemove tree0 last))
              (Entry.Tree (treeRemove tree0 last)))
            root (some (get_non_leaf (hash_tree (treeRemove tree0 last))))
          refine ⟨h1, h2, h3,
            new ++ [(hash_tree (treeRemove tree0 last), Entry.Tree (treeRemove tree0 last))], ?_⟩
          rw [h4]
          simp [put_to_staging_area]
      | some nIns =>
        by_cases hEmpty : (treeInsert tree0 last nIns).isEmpty = true
        · rw [if_pos hEmpty]
          exact ih s root none
        · rw [if_neg hEmpty]
          obtain ⟨h1, h2, h3, new, h4⟩ := ih
            (put_to_staging_area s (hash_tree (treeInsert tree0 last nIns))
              (Entry.Tree (treeInsert tree0 last nIns)))
            root (some (get_non_leaf (hash_tree (treeInsert tree0 last nIns))))
          refine ⟨h1, h2, h3,
            new ++ [(hash_tree (treeInsert tree0 last nIns),
              Entry.Tree (treeInsert tree0 last nIns))], ?_⟩
          rw [h4]
          simp [put_to_staging_area]

/-- Soundness of an insert run of `compute_new_root_with_change`: on
success it only extends the staging area with trees whose hashes are
strictly longer than the grafted node's hash, the new root hash resolves
to a staged tree, and descending the edited path from the new root reaches
exactly the grafted node. -/
theorem compute_new_root_rev_insert_sound :
    ∀ (revKey : List Segment) (s : MerkleStorage) (root : Tree) (node : Node)
      (H : EntryHash) (sOut : MerkleStorage),
    node.node_kind = NodeKind.NonLeaf →
    compute_new_root_rev s root revKey (some node) = (.ok H, sOut) →
    ∃ new, sOut.staged = new ++ s.staged ∧
      (∀ p ∈ new, node.entry_hash.length < p.1.length) ∧
      descendNode sOut { node_kind := NodeKind.NonLeaf, entry_hash := H } revKey.reverse
        = .ok node ∧
      ((new = [] ∧ H = node.entry_hash) ∨
        ∃ t rest, new = (H, Entry.Tree t) :: rest ∧ hash_tree t = H) := by
  intro revKey
  induction revKey with
  | nil =>
    intro s root node H sOut hkind heq
    obtain ⟨nk, nh⟩ := node
    simp only at hkind
    subst hkind
    simp only [compute_new_root_rev] at heq
    injection heq with h1 h2
    injection h1 with h1
    subst h1
    subst h2
    exact ⟨[], rfl, fun p hp => absurd hp (List.not_mem_nil p), rfl, Or.inl ⟨rfl, rfl⟩⟩
  | cons last revPath ih =>
    intro s root node H sOut hkind heq
    simp only [compute_new_root_rev] at heq
    cases hft : find_tree s root revPath.reverse with
    | error e =>
      rw [hft] at heq
      cases heq
    | ok tree0 =>
      rw [hft] at heq
      dsimp only at heq
      have hnotE : ¬((treeInsert tree0 last node).isEmpty = true) := by
        intro hc
        cases htI : treeInsert tree0 last node with
        | nil => exact treeInsert_ne_nil tree0 last node htI
        | cons a b => rw [htI] at hc; simp [List.isEmpty] at hc
      rw [if_neg hnotE] at heq
      obtain ⟨new2, hstg, hlen, hdesc, hhead⟩ :=
        ih _ root (get_non_leaf (hash_tree (treeInsert tree0 last node))) H sOut rfl heq
      have hstg2 : sOut.staged =
          new2 ++ ((hash_tree (treeInsert tree0 last node),
            Entry.Tree (treeInsert tree0 last node)) :: s.staged) := hstg
      have hmemT : (last, node) ∈ treeInsert tree0 last node :=
        mem_treeInsert_self tree0 last node
      have hlt1 : node.entry_hash.length <
          (hash_tree (treeInsert tree0 last node)).length :=
        entry_hash_length_lt_hash_tree _ last node hmemT
      have hne2 : ∀ p ∈ new2, p.1 ≠ hash_tree (treeInsert tree0 last node) := by
        intro p hp hc
        have hl := hlen p hp
        rw [hc] at hl
        exact lt_irrefl _ hl
      have hge : get_entry sOut (hash_tree (treeInsert tree0 last node)) =
          .ok (Entry.Tree (treeInsert tree0 last node)) := by
        simp only [get_entry, hstg2]
        rw [assocLookup_append_of_ne _ _ _ hne2]
        simp [assocLookup]
      refine ⟨new2 ++ [(hash_tree (treeInsert tree0 last node),
        Entry.Tree (treeInsert tree0 last node))], ?_, ?_, ?_, ?_⟩
      · rw [hstg2]
        simp
      · intro p hp
        rcases List.mem_append.mp hp with h2 | h2
        · exact lt_trans hlt1 (hlen p h2)
        · rcases List.mem_singleton.mp h2 with rfl
          exact hlt1
      · rw [List.reverse_cons, descendNode_append, hdesc]
        dsimp only [descendNode, descendStep, get_non_leaf]
        rw [hge]
        dsimp only
        rw [treeGet_treeInsert_self]
      · rcases hhead with ⟨hnew2, hH⟩ | ⟨t, rest, hnew2, hht⟩
        · refine Or.inr ⟨treeInsert tree0 last node, [], ?_, hH.symm⟩
          rw [hnew2, hH]
          rfl
        · refine Or.inr ⟨t, rest ++ [(hash_tree (treeInsert tree0 last node),
            Entry.Tree (treeInsert tree0 last node))], ?_, hht⟩
          rw [hnew2]
          rfl

/-- Read-after-write: a successful `set` of a non-empty key is observed by
the immediately following `get` of the same key, which returns exactly the
written value and leaves the state unchanged. -/
theorem set_get_sound (s : MerkleStorage) (key : ContextKey) (value : ContextValue)
    (hk : key ≠ []) (s2 : MerkleStorage)
    (hok : set s key value = (.ok (), s2)) :
    get s2 key = (.ok value, s2) := by
  obtain ⟨last, revPath, hrev⟩ : ∃ last revPath, key.reverse = last :: revPath := by
    cases hr : key.reverse with
    | nil => exact absurd (List.reverse_eq_nil_iff.mp hr) hk
    | cons a b => exact ⟨a, b, rfl⟩
  obtain ⟨root, s1, hgs⟩ : ∃ root s1, get_staged_root s = (root, s1) := ⟨_, _, rfl⟩
  simp only [set.eq_def, hgs, _set.eq_def, compute_new_root_with_change.eq_def] at hok
  rcases hcnr : compute_new_root_rev
      (put_to_staging_area s1 (hash_blob value) (Entry.Blob value)) root key.reverse
      (some { node_kind := NodeKind.Leaf, entry_hash := hash_blob value })
    with ⟨res, s3⟩
  rw [hcnr] at hok
  cases res with
  | error e => simp at hok
  | ok H =>
    dsimp only at hok
    cases hgt : get_tree s3 H with
    | error e => rw [hgt] at hok; simp at hok
    | ok t =>
      rw [hgt] at hok
      dsimp only at hok
      injection hok with hok1 hok2
      subst hok2
      rw [hrev] at hcnr
      simp only [compute_new_root_rev] at hcnr
      cases hft : find_tree (put_to_staging_area s1 (hash_blob value) (Entry.Blob value))
          root revPath.reverse with
      | error e => rw [hft] at hcnr; cases hcnr
      | ok tree0 =>
        rw [hft] at hcnr
        dsimp only at hcnr
        have hnotE : ¬((treeInsert tree0 last
            { node_kind := NodeKind.Leaf, entry_hash := hash_blob value }).isEmpty = true) := by
          intro hc
          cases htI : treeInsert tree0 last
              { node_kind := NodeKind.Leaf, entry_hash := hash_blob value } with
          | nil => exact treeInsert_ne_nil _ _ _ htI
          | cons a b => rw [htI] at hc; simp [List.isEmpty] at hc
        rw [if_neg hnotE] at hcnr
        obtain ⟨new2, hstg, hlen, hdesc, hhead⟩ :=
          compute_new_root_rev_insert_sound revPath _ root
            (get_non_leaf (hash_tree (treeInsert tree0 last
              { node_kind := NodeKind.Leaf, entry_hash := hash_blob value }))) H s3 rfl hcnr
        have hstg2 : s3.staged =
            new2 ++ ((hash_tree (treeInsert tree0 last
                { node_kind := NodeKind.Leaf, entry_hash := hash_blob value }),
              Entry.Tree (treeInsert tree0 last
                { node_kind := NodeKind.Leaf, entry_hash := hash_blob value })) ::
              (hash_blob value, Entry.Blob value) :: s1.staged) := hstg
        have hltb : (hash_blob value).length <
            (hash_tree (treeInsert tree0 last
              { node_kind := NodeKind.Leaf, entry_hash := hash_blob value })).length :=
          entry_hash_length_lt_hash_tree _ last
            { node_kind := NodeKind.Leaf, entry_hash := hash_blob value }
            (mem_treeInsert_self tree0 last
              { node_kind := NodeKind.Leaf, entry_hash := hash_blob value })
        have hne2 : ∀ p ∈ new2, p.1 ≠ hash_tree (treeInsert tree0 last
            { node_kind := NodeKind.Leaf, entry_hash := hash_blob value }) := by
          intro p hp hc
          have hl := hlen p hp
          rw [hc] at hl
          exact lt_irrefl _ hl
        have hgeT : get_entry s3 (hash_tree (treeInsert tree0 last
            { node_kind := NodeKind.Leaf, entry_hash := hash_blob value })) =
            .ok (Entry.Tree (treeInsert tree0 last
              { node_kind := NodeKind.Leaf, entry_hash := hash_blob value })) := by
          simp only [get_entry, hstg2]
          rw [assocLookup_append_of_ne _ _ _ hne2]
          simp [assocLookup]
        have hgeB : get_entry s3 (hash_blob value) = .ok (Entry.Blob value) := by
          simp only [get_entry, hstg2]
          have hne3 : ∀ p ∈ new2 ++ [(hash_tree (treeInsert tree0 last
              { node_kind := NodeKind.Leaf, entry_hash := hash_blob value }),
              Entry.Tree (treeInsert tree0 last
                { node_kind := NodeKind.Leaf, entry_hash := hash_blob value }))],
              p.1 ≠ hash_blob value := by
            intro p hp hc
            rcases List.mem_append.mp hp with h2 | h2
            · have hl := hlen p h2
              rw [hc] at hl
              simp only [get_non_leaf] at hl
              omega
            · rcases List.mem_singleton.mp h2 with rfl
              simp only at hc
              rw [hc] at hltb
              exact lt_irrefl _ hltb
          have : new2 ++ ((hash_tree (treeInsert tree0 last
              { node_kind := NodeKind.Leaf, entry_hash := hash_blob value }),
              Entry.Tree (treeInsert tree0 last
                { node_kind := NodeKind.Leaf, entry_hash := hash_blob value })) ::
              (hash_blob value, Entry.Blob value) :: s1.staged) =
              (new2 ++ [(hash_tree (treeInsert tree0 last
                { node_kind := NodeKind.Leaf, entry_hash := hash_blob value }),
                Entry.Tree (treeInsert tree0 last
                  { node_kind := NodeKind.Leaf, entry_hash := hash_blob value }))]) ++
              ((hash_blob value, Entry.Blob value) :: s1.staged) := by simp
          rw [this, assocLookup_append_of_ne _ _ _ hne3]
          simp [assocLookup]
        have htop : ∃ tt, assocLookup s3.staged H = some (Entry.Tree tt) ∧ hash_tree tt = H := by
          rcases hhead with ⟨hnew2, hH⟩ | ⟨tt, rest, hnew2, hht⟩
          · have hH2 : hash_tree (treeInsert tree0 last
                { node_kind := NodeKind.Leaf, entry_hash := hash_blob value }) = H := hH.symm
            refine ⟨treeInsert tree0 last
              { node_kind := NodeKind.Leaf, entry_hash := hash_blob value }, ?_, hH2⟩
            rw [hstg2, hnew2]
            simp only [List.nil_append, assocLookup]
            rw [if_pos hH2]
          · refine ⟨tt, ?_, hht⟩
            rw [hstg2, hnew2]
            simp [assocLookup]
        obtain ⟨tt, hlook, hhash⟩ := htop
        have hgeH : get_entry s3 H = .ok (Entry.Tree tt) := by
          simp only [get_entry, hlook]
        have httt : t = tt := by
          simp only [get_tree, hgeH] at hgt
          injection hgt with h
          exact h.symm
        subst httt
        have hhash2 : hash_tree t = H := hhash
        show get { s3 with current_stage_tree := some t } key =
          (.ok value, { s3 with current_stage_tree := some t })
        have hcur : ({ s3 with current_stage_tree := some t } : MerkleStorage).staged
            = s3.staged := rfl
        simp only [get.eq_def, get_staged_root.eq_def]
        refine Prod.ext ?_ rfl
        dsimp only
        rw [hhash2]
        simp only [get_from_tree.eq_def, hrev]
        have hgeH2 : get_entry { s3 with current_stage_tree := some t } H =
            .ok (Entry.Tree t) := by
          simp only [get_entry, hcur, hlook]
        have hgtH2 : get_tree { s3 with current_stage_tree := some t } H = .ok t := by
          simp only [get_tree, hgeH2]
        rw [hgtH2]
        dsimp only
        have hdesc2 : descendNode { s3 with current_stage_tree := some t }
            { node_kind := NodeKind.NonLeaf, entry_hash := H } revPath.reverse =
            .ok (get_non_leaf (hash_tree (treeInsert tree0 last
              { node_kind := NodeKind.Leaf, entry_hash := hash_blob value }))) := by
          rw [descendNode_congr { s3 with current_stage_tree := some t } s3 rfl rfl]
          exact hdesc
        have hgeT2 : get_entry { s3 with current_stage_tree := some t }
            (get_non_leaf (hash_tree (treeInsert tree0 last
              { node_kind := NodeKind.Leaf, entry_hash := hash_blob value }))).entry_hash =
            .ok (Entry.Tree (treeInsert tree0 last
              { node_kind := NodeKind.Leaf, entry_hash := hash_blob value })) := by
          rw [get_entry_congr { s3 with current_stage_tree := some t } s3 rfl rfl]
          exact hgeT
        have hfind : find_tree { s3 with current_stage_tree := some t } t revPath.reverse =
            .ok (treeInsert tree0 last
              { node_kind := NodeKind.Leaf, entry_hash := hash_blob value }) :=
          find_tree_of_descend _ revPath.reverse
            { node_kind := NodeKind.NonLeaf, entry_hash := H } _ t _ hdesc2 hgeH2 hgeT2
        rw [hfind]
        dsimp only
        rw [treeGet_treeInsert_self]
        have hgeB2 : get_entry { s3 with current_stage_tree := some t } (hash_blob value) =
            .ok (Entry.Blob value) := by
          rw [get_entry_congr { s3 with current_stage_tree := some t } s3 rfl rfl]
          exact hgeB
        dsimp only
        rw [hgeB2]

/-- C1: For every non-empty key k and value v, calling set(k, v) and then
get(k) on the same MerkleStorage instance returns v; in particular, after
set(k, v1) followed by set(k, v2), get(k) returns v2 (the most recent
write wins). -/
theorem C1_set_then_get_returns_value (s : MerkleStorage) (key : ContextKey)
    (v1 v2 : ContextValue) (hk : key ≠ []) :
    (∀ s2, set s key v1 = (.ok (), s2) → (get s2 key).1 = .ok v1) ∧
    (∀ s2 s3, set s key v1 = (.ok (), s2) → set s2 key v2 = (.ok (), s3) →
      (get s3 key).1 = .ok v2) := by
  constructor
  · intro s2 h
    rw [set_get_sound s key v1 hk s2 h]
  · intro s2 s3 h1 h2
    rw [set_get_sound s2 key v2 hk s3 h2]

/-- Witness for C1 at the concrete key ["a"], values [1] then [2], on the
empty storage. -/
theorem C1_witness :
    (get (set MerkleStorage.new [[97]] [1]).2 [[97]]).1 = .ok [1] ∧
    (get (set (set MerkleStorage.new [[97]] [1]).2 [[97]] [2]).2 [[97]]).1 = .ok [2] := by
  constructor
  · exact (C1_set_then_get_returns_value MerkleStorage.new [[97]] [1] [2]
      (by decide)).1 _ (by decide)
  · exact (C1_set_then_get_returns_value MerkleStorage.new [[97]] [1] [2]
      (by decide)).2 (set MerkleStorage.new [[97]] [1]).2
      (set (set MerkleStorage.new [[97]] [1]).2 [[97]] [2]).2 (by decide) (by decide)

/-- C10: set with the empty key fails with FoundUnexpectedStructure
(sought "tree", found "blob"), not KeyEmpty; the staging root and
last_commit are unchanged, while the value blob is still staged. -/
theorem C10_empty_key_set (s : MerkleStorage) (v : ContextValue) :
    (set s [] v).1 = .error (MerkleError.FoundUnexpectedStructure "tree" "blob") ∧
    (set s [] v).2.current_stage_tree = s.current_stage_tree ∧
    (set s [] v).2.last_commit_hash = s.last_commit_hash ∧
    assocLookup (set s [] v).2.staged (hash_blob v) = some (Entry.Blob v) := by
  cases hc : s.current_stage_tree with
  | none =>
    refine ⟨?_, ?_, ?_, ?_⟩ <;>
      simp [set.eq_def, get_staged_root.eq_def, hc, _set.eq_def,
        compute_new_root_with_change.eq_def, compute_new_root_rev,
        put_to_staging_area, get_tree.eq_def, get_entry.eq_def, assocLookup]
  | some t =>
    refine ⟨?_, ?_, ?_, ?_⟩ <;>
      simp [set.eq_def, get_staged_root.eq_def, hc, _set.eq_def,
        compute_new_root_with_change.eq_def, compute_new_root_rev,
        put_to_staging_area, get_tree.eq_def, get_entry.eq_def, assocLookup]

/-- C3: checkout(h) loads the commit's root tree as the staging root,
clears the staging map and sets last_commit to h; it fails with
EntryNotFound when h resolves in neither staging nor backing store; staged
edits from before the checkout are discarded, so get reflects commit h. -/
theorem C3_checkout_semantics (s : MerkleStorage) (h : EntryHash) :
    (∀ s2, checkout s h = (.ok (), s2) →
      s2.staged = [] ∧ s2.last_commit_hash = some h ∧
      ∃ c t, get_commit s h = .ok c ∧ get_tree s c.root_hash = .ok t ∧
        s2.current_stage_tree = some t) ∧
    (assocLookup s.staged h = none → assocLookup s.db h = none →
      checkout s h = (.error (MerkleError.EntryNotFound h), s)) ∧
    ((checkout c3_s3 c3_c1h).1 = .ok () ∧
      (get (checkout c3_s3 c3_c1h).2 [[97]]).1 = .ok [1]) := by
  refine ⟨?_, ?_, by decide⟩
  · intro s2 hch
    simp only [checkout.eq_def] at hch
    cases hgc : get_commit s h with
    | error e => rw [hgc] at hch; simp at hch
    | ok c =>
      rw [hgc] at hch
      dsimp only at hch
      cases hgt : get_tree s c.root_hash with
      | error e => rw [hgt] at hch; simp at hch
      | ok t =>
        rw [hgt] at hch
        dsimp only at hch
        injection hch with hch1 hch2
        subst hch2
        exact ⟨rfl, rfl, c, t, rfl, hgt, rfl⟩
  · intro h1 h2
    simp [checkout.eq_def, get_commit.eq_def, get_entry.eq_def, h1, h2]

/-- Witness for C3: postconditions of a successful concrete checkout, and
the EntryNotFound failure on an unknown hash. -/
theorem C3_witness :
    ((checkout c3_s3 c3_c1h).2.staged = [] ∧
      (checkout c3_s3 c3_c1h).2.last_commit_hash = some c3_c1h) ∧
    checkout MerkleStorage.new [0] =
      (.error (MerkleError.EntryNotFound [0]), MerkleStorage.new) := by
  constructor
  · obtain ⟨h1, h2, _⟩ := (C3_checkout_semantics c3_s3 c3_c1h).1
      (checkout c3_s3 c3_c1h).2 (by decide)
    exact ⟨h1, h2⟩
  · exact (C3_checkout_semantics MerkleStorage.new [0]).2.1 (by decide) (by decide)

/-! ### Commit hashing: injectivity in the metadata -/

theorem be64_inj (m n : Nat) (hm : m < 2 ^ 64) (hn : n < 2 ^ 64)
    (h : be64 m = be64 n) : m = n := by
  simp only [be64, List.cons.injEq, and_true] at h
  obtain ⟨h1, h2, h3, h4, h5, h6, h7, h8⟩ := h
  omega

theorem lengthFramed_inj (a1 a2 r1 r2 : List Nat) (ha1 : a1.length < 2 ^ 64)
    (ha2 : a2.length < 2 ^ 64)
    (h : be64 a1.length ++ (a1 ++ r1) = be64 a2.length ++ (a2 ++ r2)) :
    a1 = a2 ∧ r1 = r2 := by
  obtain ⟨hlen, hrest⟩ := List.append_inj h (by rw [be64_length, be64_length])
  have hl : a1.length = a2.length := be64_inj _ _ ha1 ha2 hlen
  exact List.append_inj hrest hl

/-- Distinct commit metadata (time, author or message) yields distinct
commit hashes over a fixed root and parent; `⟨p, r, t, a, m⟩` is the
Commit record (parent, root, time, author, message). -/
theorem hash_commit_metadata_inj (p : Option EntryHash) (r : EntryHash)
    (t1 t2 : Nat) (a1 a2 m1 m2 : List Nat)
    (ht1 : t1 < 2 ^ 64) (ht2 : t2 < 2 ^ 64)
    (ha1 : a1.length < 2 ^ 64) (ha2 : a2.length < 2 ^ 64)
    (hne : ¬(t1 = t2 ∧ a1 = a2 ∧ m1 = m2)) :
    hash_commit ⟨p, r, t1, a1, m1⟩ ≠ hash_commit ⟨p, r, t2, a2, m2⟩ := by
  intro h
  simp only [hash_commit, List.append_assoc] at h
  have h2 := List.append_cancel_left h
  have h3 := List.append_cancel_left h2
  have h4 := List.append_cancel_left h3
  obtain ⟨hteq, h5⟩ := List.append_inj h4 (by rw [be64_length, be64_length])
  have ht : t1 = t2 := be64_inj _ _ ht1 ht2 hteq
  have h5' : be64 a1.length ++ (a1 ++ (be64 m1.length ++ m1)) =
      be64 a2.length ++ (a2 ++ (be64 m2.length ++ m2)) := by
    simpa [List.append_assoc] using h5
  obtain ⟨haeq, h6⟩ := lengthFramed_inj a1 a2 _ _ ha1 ha2 h5'
  obtain ⟨hmlen, hmeq⟩ := List.append_inj h6 (by rw [be64_length, be64_length])
  exact hne ⟨ht, haeq, hmeq⟩

/-- Postcondition of a successful commit: the returned hash is the hash of
the Commit over the staged root and last_commit parent, staging is
cleared, and last_commit is the new hash. -/
theorem commit_postcondition (s : MerkleStorage) (time : Nat)
    (author message : List Nat) (ch : EntryHash) (s2 : MerkleStorage)
    (hcm : commit s time author message = (.ok ch, s2)) :
    ch = hash_commit ⟨s.last_commit_hash,
      hash_tree (match s.current_stage_tree with
        | some t => t
        | none => []), time, author, message⟩ ∧
    s2.staged = [] ∧ s2.last_commit_hash = some ch := by
  cases hc : s.current_stage_tree with
  | none =>
    simp only [commit.eq_def, get_staged_root.eq_def, hc] at hcm
    rcases hp : persist_staged_entry_to_db
        (put_to_staging_area (put_to_staging_area s (hash_tree []) (Entry.Tree []))
          (hash_commit ⟨(put_to_staging_area s (hash_tree [])
            (Entry.Tree [])).last_commit_hash, hash_tree [], time, author, message⟩)
          (Entry.Commit ⟨(put_to_staging_area s (hash_tree [])
            (Entry.Tree [])).last_commit_hash, hash_tree [], time, author, message⟩))
        (Entry.Commit ⟨(put_to_staging_area s (hash_tree [])
          (Entry.Tree [])).last_commit_hash, hash_tree [], time, author, message⟩)
      with ⟨r, s3⟩
    rw [hp] at hcm
    cases r with
    | error e => simp at hcm
    | ok u =>
      dsimp only at hcm
      injection hcm with hcm1 hcm2
      injection hcm1 with hcm1
      subst hcm1
      subst hcm2
      exact ⟨rfl, rfl, rfl⟩
  | some t =>
    simp only [commit.eq_def, get_staged_root.eq_def, hc] at hcm
    rcases hp : persist_staged_entry_to_db
        (put_to_staging_area s
          (hash_commit ⟨s.last_commit_hash, hash_tree t, time, author, message⟩)
          (Entry.Commit ⟨s.last_commit_hash, hash_tree t, time, author, message⟩))
        (Entry.Commit ⟨s.last_commit_hash, hash_tree t, time, author, message⟩)
      with ⟨r, s3⟩
    rw [hp] at hcm
    cases r with
    | error e => simp at hcm
    | ok u =>
      dsimp only at hcm
      injection hcm with hcm1 hcm2
      injection hcm1 with hcm1
      subst hcm1
      subst hcm2
      exact ⟨rfl, rfl, rfl⟩

/-- C5: a successful commit returns the hash of the Commit built over the
current staged root hash with last_commit as parent, clears staging and
records the new hash as last_commit; empty commits succeed, and commits
from the same state with different time/author/message have distinct
hashes. -/
theorem C5_commit_semantics (s : MerkleStorage) (time : Nat) (author message : List Nat) :
    (∀ ch s2, commit s time author message = (.ok ch, s2) →
      ch = hash_commit ⟨s.last_commit_hash,
        hash_tree (match s.current_stage_tree with
          | some t => t
          | none => []), time, author, message⟩ ∧
      s2.staged = [] ∧ s2.last_commit_hash = some ch) ∧
    (∀ (time2 : Nat) (author2 message2 : List Nat) ch1 s1 ch2 s2,
      commit s time author message = (.ok ch1, s1) →
      commit s time2 author2 message2 = (.ok ch2, s2) →
      time < 2 ^ 64 → time2 < 2 ^ 64 →
      author.length < 2 ^ 64 → author2.length < 2 ^ 64 →
      ¬(time = time2 ∧ author = author2 ∧ message = message2) →
      ch1 ≠ ch2) ∧
    ((commit MerkleStorage.new 0 [] [97]).1.toOption.isSome = true ∧
      (commit (commit MerkleStorage.new 0 [] [97]).2 0 [] [98]).1.toOption.isSome = true ∧
      (commit MerkleStorage.new 0 [] [97]).1 ≠
        (commit (commit MerkleStorage.new 0 [] [97]).2 0 [] [98]).1) := by
  refine ⟨commit_postcondition s time author message, ?_, by decide⟩
  intro time2 author2 message2 ch1 s1 ch2 s2 h1 h2 hb1 hb2 hb3 hb4 hne
  obtain ⟨hch1, _, _⟩ := commit_postcondition s time author message ch1 s1 h1
  obtain ⟨hch2, _, _⟩ := commit_postcondition s time2 author2 message2 ch2 s2 h2
  rw [hch1, hch2]
  exact hash_commit_metadata_inj _ _ time time2 author author2 message message2
    hb1 hb2 hb3 hb4 hne

/-- Witness for C5: apply the commit semantics on the empty storage. -/
theorem C5_witness :
    ((commit MerkleStorage.new 0 [] []).1.toOption.getD [] =
        hash_commit ⟨none, hash_tree [], 0, [], []⟩ ∧
      (commit MerkleStorage.new 0 [] []).2.staged = []) ∧
    (commit MerkleStorage.new 0 [] [97]).1.toOption.getD [] ≠
      (commit MerkleStorage.new 0 [] [98]).1.toOption.getD [] := by
  constructor
  · obtain ⟨h1, h2, _⟩ := (C5_commit_semantics MerkleStorage.new 0 [] []).1
      ((commit MerkleStorage.new 0 [] []).1.toOption.getD [])
      (commit MerkleStorage.new 0 [] []).2 (by decide)
    exact ⟨h1, h2⟩
  · exact (C5_commit_semantics MerkleStorage.new 0 [] [97]).2.1 0 [] [98]
      ((commit MerkleStorage.new 0 [] [97]).1.toOption.getD [])
      (commit MerkleStorage.new 0 [] [97]).2
      ((commit MerkleStorage.new 0 [] [98]).1.toOption.getD [])
      (commit MerkleStorage.new 0 [] [98]).2
      (by decide) (by decide) (by decide) (by decide) (by decide) (by decide) (by decide)

/-- Frame of `get_staged_root`: it never changes the checked-out tree, the
DB, or the last commit pointer. -/
theorem get_staged_root_frame (s : MerkleStorage) :
    (get_staged_root s).2.current_stage_tree = s.current_stage_tree ∧
    (get_staged_root s).2.db = s.db ∧
    (get_staged_root s).2.last_commit_hash = s.last_commit_hash := by
  cases hc : s.current_stage_tree <;>
    simp [get_staged_root.eq_def, hc, put_to_staging_area]

/-- `get_staged_root` only extends the staging area (by the genesis tree,
when no tree is checked out). -/
theorem get_staged_root_staged (s : MerkleStorage) :
    ∃ g, (get_staged_root s).2.staged = g ++ s.staged := by
  cases hc : s.current_stage_tree with
  | none =>
    exact ⟨[(hash_tree [], Entry.Tree [])],
      by simp [get_staged_root.eq_def, hc, put_to_staging_area]⟩
  | some t => exact ⟨[], by simp [get_staged_root.eq_def, hc]⟩

/-- A failing `persist_staged_entry_to_db` leaves the state unchanged. -/
theorem persist_error_state (s : MerkleStorage) (e : Entry) (err : MerkleError)
    (h : (persist_staged_entry_to_db s e).1 = .error err) :
    (persist_staged_entry_to_db s e).2 = s := by
  simp only [persist_staged_entry_to_db.eq_def] at h ⊢
  cases hger : get_entries_recursively s (s.staged.length + s.db.length + 2) e [] with
  | error e2 => rfl
  | ok batch => simp [hger] at h

/-- Amended C6: an erroring operation leaves the checked-out tree, the DB
and last_commit unchanged and keeps every staging edit made before the
failing call (the staging map of the result is the prior one extended in
front, so every prior binding is still present); a failing checkout leaves
the whole state unchanged; the residual effects are the staged value blob
of a failing set and the staged commit entry of a failing commit. -/
theorem C6_error_leaves_state_well_defined :
    (∀ (s : MerkleStorage) (k : ContextKey) (v : ContextValue) (e : MerkleError),
      (set s k v).1 = .error e →
      (set s k v).2.current_stage_tree = s.current_stage_tree ∧
      (set s k v).2.db = s.db ∧
      (set s k v).2.last_commit_hash = s.last_commit_hash ∧
      (∃ new, (set s k v).2.staged = new ++ s.staged) ∧
      (hash_blob v, Entry.Blob v) ∈ (set s k v).2.staged) ∧
    (∀ (s : MerkleStorage) (k : ContextKey) (e : MerkleError),
      (delete s k).1 = .error e →
      (delete s k).2.current_stage_tree = s.current_stage_tree ∧
      (delete s k).2.db = s.db ∧
      (delete s k).2.last_commit_hash = s.last_commit_hash ∧
      (∃ new, (delete s k).2.staged = new ++ s.staged)) ∧
    (∀ (s : MerkleStorage) (a b : ContextKey) (e : MerkleError),
      (copy s a b).1 = .error e →
      (copy s a b).2.current_stage_tree = s.current_stage_tree ∧
      (copy s a b).2.db = s.db ∧
      (copy s a b).2.last_commit_hash = s.last_commit_hash ∧
      (∃ new, (copy s a b).2.staged = new ++ s.staged)) ∧
    (∀ (s : MerkleStorage) (k : ContextKey) (e : MerkleError),
      (get s k).1 = .error e →
      (get s k).2.current_stage_tree = s.current_stage_tree ∧
      (get s k).2.db = s.db ∧
      (get s k).2.last_commit_hash = s.last_commit_hash ∧
      (∃ new, (get s k).2.staged = new ++ s.staged)) ∧
    (∀ (s : MerkleStorage) (h : EntryHash) (e : MerkleError),
      (checkout s h).1 = .error e → (checkout s h).2 = s) ∧
    (∀ (s : MerkleStorage) (time : Nat) (author message : List Nat) (e : MerkleError),
      (commit s time author message).1 = .error e →
      (commit s time author message).2.current_stage_tree = s.current_stage_tree ∧
      (commit s time author message).2.db = s.db ∧
      (commit s time author message).2.last_commit_hash = s.last_commit_hash ∧
      (∃ new, (commit s time author message).2.staged = new ++ s.staged) ∧
      (hash_commit ⟨s.last_commit_hash,
          hash_tree (match s.current_stage_tree with | some t => t | none => []),
          time, author, message⟩,
        Entry.Commit ⟨s.last_commit_hash,
          hash_tree (match s.current_stage_tree with | some t => t | none => []),
          time, author, message⟩) ∈ (commit s time author message).2.staged) := by
  refine ⟨?_, ?_, ?_, ?_, ?_, ?_⟩
  · intro s k v e herr
    obtain ⟨hf1, hf2, hf3⟩ := get_staged_root_frame s
    obtain ⟨g, hg⟩ := get_staged_root_staged s
    simp only [set.eq_def, _set.eq_def, compute_new_root_with_change.eq_def] at herr ⊢
    rcases hcnr : compute_new_root_rev
        (put_to_staging_area (get_staged_root s).2 (hash_blob v) (Entry.Blob v))
        (get_staged_root s).1 k.reverse
        (some { node_kind := NodeKind.Leaf, entry_hash := hash_blob v })
      with ⟨res, s3⟩
    obtain ⟨g1, g2, g3, gnew, g4⟩ := compute_new_root_rev_frame k.reverse
      (put_to_staging_area (get_staged_root s).2 (hash_blob v) (Entry.Blob v))
      (get_staged_root s).1
      (some { node_kind := NodeKind.Leaf, entry_hash := hash_blob v })
    rw [hcnr] at herr g1 g2 g3 g4
    simp only [put_to_staging_area] at g4
    have hst : s3.staged = (gnew ++ (hash_blob v, Entry.Blob v) :: g) ++ s.staged := by
      rw [g4, hg]
      simp
    have hmem : (hash_blob v, Entry.Blob v) ∈ s3.staged := by
      rw [g4]
      exact List.mem_append.mpr (Or.inr (List.mem_cons_self _ _))
    cases res with
    | error e2 =>
      dsimp only at herr ⊢
      exact ⟨g1.trans hf1, g2.trans hf2, g3.trans hf3, ⟨_, hst⟩, hmem⟩
    | ok H =>
      dsimp only at herr ⊢
      cases hgt : get_tree s3 H with
      | error e2 =>
        rw [hgt] at herr
        dsimp only at herr ⊢
        exact ⟨g1.trans hf1, g2.trans hf2, g3.trans hf3, ⟨_, hst⟩, hmem⟩
      | ok t =>
        rw [hgt] at herr
        simp at herr
  · intro s k e herr
    obtain ⟨hf1, hf2, hf3⟩ := get_staged_root_frame s
    obtain ⟨g, hg⟩ := get_staged_root_staged s
    cases k with
    | nil =>
      simp only [delete.eq_def, _delete.eq_def] at herr ⊢
      cases hgt : get_tree (get_staged_root s).2 (hash_tree (get_staged_root s).1) with
      | error e2 =>
        rw [hgt] at herr
        dsimp only at herr ⊢
        exact ⟨hf1, hf2, hf3, g, hg⟩
      | ok t =>
        rw [hgt] at herr
        simp at herr
    | cons k0 ks =>
      simp only [delete.eq_def, _delete.eq_def, compute_new_root_with_change.eq_def] at herr ⊢
      rcases hcnr : compute_new_root_rev (get_staged_root s).2 (get_staged_root s).1
          ((k0 :: ks).reverse) none with ⟨res, s3⟩
      obtain ⟨g1, g2, g3, gnew, g4⟩ := compute_new_root_rev_frame ((k0 :: ks).reverse)
        (get_staged_root s).2 (get_staged_root s).1 none
      rw [hcnr] at herr g1 g2 g3 g4
      have hst : s3.staged = (gnew ++ g) ++ s.staged := by
        rw [g4, hg]
        simp
      cases res with
      | error e2 =>
        dsimp only at herr ⊢
        exact ⟨g1.trans hf1, g2.trans hf2, g3.trans hf3, ⟨_, hst⟩⟩
      | ok H =>
        dsimp only at herr ⊢
        cases hgt : get_tree s3 H with
        | error e2 =>
          rw [hgt] at herr
          dsimp only at herr ⊢
          exact ⟨g1.trans hf1, g2.trans hf2, g3.trans hf3, ⟨_, hst⟩⟩
        | ok t =>
          rw [hgt] at herr
          simp at herr
  · intro s a b e herr
    obtain ⟨hf1, hf2, hf3⟩ := get_staged_root_frame s
    obtain ⟨g, hg⟩ := get_staged_root_staged s
    simp only [copy.eq_def, _copy.eq_def, compute_new_root_with_change.eq_def] at herr ⊢
    cases hft : find_tree (get_staged_root s).2 (get_staged_root s).1 a with
    | error e2 =>
      rw [hft] at herr
      dsimp only at herr ⊢
      exact ⟨hf1, hf2, hf3, g, hg⟩
    | ok src =>
      rw [hft] at herr
      dsimp only at herr ⊢
      rcases hcnr : compute_new_root_rev (get_staged_root s).2 (get_staged_root s).1
          b.reverse (some (get_non_leaf (hash_tree src))) with ⟨res, s3⟩
      obtain ⟨g1, g2, g3, gnew, g4⟩ := compute_new_root_rev_frame b.reverse
        (get_staged_root s).2 (get_staged_root s).1 (some (get_non_leaf (hash_tree src)))
      rw [hcnr] at herr g1 g2 g3 g4
      have hst : s3.staged = (gnew ++ g) ++ s.staged := by
        rw [g4, hg]
        simp
      cases res with
      | error e2 =>
        dsimp only at herr ⊢
        exact ⟨g1.trans hf1, g2.trans hf2, g3.trans hf3, ⟨_, hst⟩⟩
      | ok H =>
        dsimp only at herr ⊢
        cases hgt : get_tree s3 H with
        | error e2 =>
          rw [hgt] at herr
          dsimp only at herr ⊢
          exact ⟨g1.trans hf1, g2.trans hf2, g3.trans hf3, ⟨_, hst⟩⟩
        | ok t =>
          rw [hgt] at herr
          simp at herr
  · intro s k e herr
    obtain ⟨hf1, hf2, hf3⟩ := get_staged_root_frame s
    obtain ⟨g, hg⟩ := get_staged_root_staged s
    simp only [get.eq_def]
    exact ⟨hf1, hf2, hf3, g, hg⟩
  · intro s h e herr
    simp only [checkout.eq_def] at herr ⊢
    cases hgc : get_commit s h with
    | error e2 => rw [hgc] at herr
    | ok c =>
      rw [hgc] at herr
      dsimp only at herr ⊢
      cases hgt : get_tree s c.root_hash with
      | error e2 => rw [hgt] at herr
      | ok t =>
        rw [hgt] at herr
        simp at herr
  · intro s time author message e herr
    obtain ⟨hf1, hf2, hf3⟩ := get_staged_root_frame s
    obtain ⟨g, hg⟩ := get_staged_root_staged s
    have hroot : (get_staged_root s).1 =
        (match s.current_stage_tree with | some t => t | none => []) := by
      cases hc : s.current_stage_tree <;> simp [get_staged_root.eq_def, hc]
    simp only [commit.eq_def] at herr ⊢
    rcases hp : persist_staged_entry_to_db
        (put_to_staging_area (get_staged_root s).2
          (hash_commit ⟨(get_staged_root s).2.last_commit_hash,
            hash_tree (get_staged_root s).1, time, author, message⟩)
          (Entry.Commit ⟨(get_staged_root s).2.last_commit_hash,
            hash_tree (get_staged_root s).1, time, author, message⟩))
        (Entry.Commit ⟨(get_staged_root s).2.last_commit_hash,
          hash_tree (get_staged_root s).1, time, author, message⟩)
      with ⟨r, s3⟩
    rw [hp] at herr
    cases r with
    | error e2 =>
      have h1 : (persist_staged_entry_to_db
          (put_to_staging_area (get_staged_root s).2
            (hash_commit ⟨(get_staged_root s).2.last_commit_hash,
              hash_tree (get_staged_root s).1, time, author, message⟩)
            (Entry.Commit ⟨(get_staged_root s).2.last_commit_hash,
              hash_tree (get_staged_root s).1, time, author, message⟩))
          (Entry.Commit ⟨(get_staged_root s).2.last_commit_hash,
            hash_tree (get_staged_root s).1, time, author, message⟩)).1 = .error e2 := by
        rw [hp]
      have h2 := persist_error_state _ _ e2 h1
      have h3 : s3 = put_to_staging_area (get_staged_root s).2
          (hash_commit ⟨(get_staged_root s).2.last_commit_hash,
            hash_tree (get_staged_root s).1, time, author, message⟩)
          (Entry.Commit ⟨(get_staged_root s).2.last_commit_hash,
            hash_tree (get_staged_root s).1, time, author, message⟩) := by
        rw [← h2, hp]
      have hcs : (⟨(get_staged_root s).2.last_commit_hash,
          hash_tree (get_staged_root s).1, time, author, message⟩ : Commit) =
          ⟨s.last_commit_hash,
            hash_tree (match s.current_stage_tree with | some t => t | none => []),
            time, author, message⟩ := by
        rw [hf3, hroot]
      dsimp only
      rw [h3]
      refine ⟨hf1, hf2, hf3, ?_, ?_⟩
      · refine ⟨(hash_commit ⟨(get_staged_root s).2.last_commit_hash,
            hash_tree (get_staged_root s).1, time, author, message⟩,
          Entry.Commit ⟨(get_staged_root s).2.last_commit_hash,
            hash_tree (get_staged_root s).1, time, author, message⟩) :: g, ?_⟩
        simp [put_to_staging_area, hg]
      · rw [← hcs]
        simp only [put_to_staging_area]
        exact List.mem_cons_self _ _
    | ok u => simp at herr

/-- Counterexample to C6 as stated: a failing set([], v) does change the
engine state (the blob is staged). -/
theorem C6_counterexample :
    (set MerkleStorage.new [] [1]).1 =
      .error (MerkleError.FoundUnexpectedStructure "tree" "blob") ∧
    (set MerkleStorage.new [] [1]).2 ≠ MerkleStorage.new := by
  decide

/-- Witness for the amended C6 on concrete erroring calls of each
operation. -/
theorem C6_witness :
    ((set MerkleStorage.new [] [1]).2.current_stage_tree =
        MerkleStorage.new.current_stage_tree ∧
      (set MerkleStorage.new [] [1]).2.last_commit_hash =
        MerkleStorage.new.last_commit_hash ∧
      (hash_blob [1], Entry.Blob [1]) ∈ (set MerkleStorage.new [] [1]).2.staged) ∧
    ((delete errState1 [[97], [98]]).2.current_stage_tree = errState1.current_stage_tree ∧
      (∃ new, (delete errState1 [[97], [98]]).2.staged = new ++ errState1.staged)) ∧
    (copy errState1 [[97], [98]] [[99]]).2.current_stage_tree = errState1.current_stage_tree ∧
    (get MerkleStorage.new []).2.db = MerkleStorage.new.db ∧
    (checkout MerkleStorage.new [0]).2 = MerkleStorage.new ∧
    (commit errState2 0 [] []).2.last_commit_hash = errState2.last_commit_hash := by
  refine ⟨?_, ?_, ?_, ?_, ?_, ?_⟩
  · obtain ⟨h1, _, h3, _, h5⟩ := C6_error_leaves_state_well_defined.1 MerkleStorage.new [] [1]
      (MerkleError.FoundUnexpectedStructure "tree" "blob") (by decide)
    exact ⟨h1, h3, h5⟩
  · obtain ⟨h1, _, _, h4⟩ := C6_error_leaves_state_well_defined.2.1 errState1 [[97], [98]]
      (MerkleError.EntryNotFound [5]) (by decide)
    exact ⟨h1, h4⟩
  · exact (C6_error_leaves_state_well_defined.2.2.1 errState1 [[97], [98]] [[99]]
      (MerkleError.EntryNotFound [5]) (by decide)).1
  · exact (C6_error_leaves_state_well_defined.2.2.2.1 MerkleStorage.new []
      MerkleError.KeyEmpty (by decide)).2.1
  · exact C6_error_leaves_state_well_defined.2.2.2.2.1 MerkleStorage.new [0]
      (MerkleError.EntryNotFound [0]) (by decide)
  · exact (C6_error_leaves_state_well_defined.2.2.2.2.2 errState2 0 [] []
      (MerkleError.EntryNotFound (hash_tree [([97],
        { node_kind := NodeKind.Leaf, entry_hash := [5] })])) (by decide)).2.2.1

/-! ### Sorted association lists: order lemmas for C9 -/

theorem bytesLt_asymm : ∀ (a b : List Nat), bytesLt a b = true → bytesLt b a = false := by
  intro a
  induction a with
  | nil =>
    intro b h
    cases b with
    | nil => simp [bytesLt] at h
    | cons y ys => rfl
  | cons x xs ih =>
    intro b h
    cases b with
    | nil => simp [bytesLt] at h
    | cons y ys =>
      simp only [bytesLt] at h ⊢
      by_cases h1 : x < y
      · rw [if_neg (by omega), if_pos h1]
      · rw [if_neg h1] at h
        by_cases h2 : y < x
        · rw [if_pos h2] at h
          cases h
        · rw [if_neg h2] at h
          rw [if_neg h2, if_neg h1]
          exact ih ys h

theorem bytesLt_total : ∀ (a b : List Nat), a ≠ b →
    bytesLt a b = true ∨ bytesLt b a = true := by
  intro a
  induction a with
  | nil =>
    intro b hne
    cases b with
    | nil => exact absurd rfl hne
    | cons y ys => exact Or.inl rfl
  | cons x xs ih =>
    intro b hne
    cases b with
    | nil => exact Or.inr rfl
    | cons y ys =>
      by_cases h1 : x < y
      · left
        simp [bytesLt, h1]
      · by_cases h2 : y < x
        · right
          simp [bytesLt, h2]
        · have hxy : x = y := by omega
          subst hxy
          have hne2 : xs ≠ ys := fun hc => hne (by rw [hc])
          rcases ih ys hne2 with h | h
          · left
            simp [bytesLt, Nat.lt_irrefl, h]
          · right
            simp [bytesLt, Nat.lt_irrefl, h]

theorem bytesLt_trans : ∀ (a b c : List Nat), bytesLt a b = true →
    bytesLt b c = true → bytesLt a c = true := by
  intro a
  induction a with
  | nil =>
    intro b c h1 h2
    cases b with
    | nil => simp [bytesLt] at h1
    | cons y ys =>
      cases c with
      | nil => simp [bytesLt] at h2
      | cons z zs => rfl
  | cons x xs ih =>
    intro b c h1 h2
    cases b with
    | nil => simp [bytesLt] at h1
    | cons y ys =>
      cases c with
      | nil => simp [bytesLt] at h2
      | cons z zs =>
        simp only [bytesLt] at h1 h2 ⊢
        by_cases hxy : x < y
        · by_cases hyz : y < z
          · rw [if_pos (show x < z by omega)]
          · rw [if_neg hyz] at h2
            by_cases hzy : z < y
            · rw [if_pos hzy] at h2
              cases h2
            · have hyz2 : y = z := by omega
              rw [if_pos (show x < z by omega)]
        · rw [if_neg hxy] at h1
          by_cases hyx : y < x
          · rw [if_pos hyx] at h1
            cases h1
          · rw [if_neg hyx] at h1
            have hxy2 : x = y := by omega
            subst hxy2
            by_cases hxz : x < z
            · rw [if_pos hxz]
            · rw [if_neg hxz] at h2 ⊢
              by_cases hzx : z < x
              · rw [if_pos hzx] at h2
                cases h2
              · rw [if_neg hzx] at h2 ⊢
                exact ih ys zs h1 h2

theorem mem_treeInsert (t : Tree) (k : Segment) (n : Node) :
    ∀ q ∈ treeInsert t k n, q ∈ t ∨ q = (k, n) := by
  induction t with
  | nil =>
    intro q hq
    simp [treeInsert] at hq
    exact Or.inr hq
  | cons p rest ih =>
    obtain ⟨k', n'⟩ := p
    intro q hq
    by_cases hlt : bytesLt k k' = true
    · simp only [treeInsert, hlt, if_pos] at hq
      rcases List.mem_cons.mp hq with h | h
      · exact Or.inr h
      · exact Or.inl h
    · by_cases heq : k = k'
      · subst heq
        simp only [treeInsert, bytesLt_irrefl] at hq
        rcases List.mem_cons.mp hq with h | h
        · exact Or.inr h
        · exact Or.inl (List.mem_cons_of_mem _ h)
      · simp only [treeInsert, hlt, if_false, heq, if_neg] at hq
        rcases List.mem_cons.mp hq with h | h
        · exact Or.inl (h ▸ List.mem_cons_self _ _)
        · rcases ih q h with h2 | h2
          · exact Or.inl (List.mem_cons_of_mem _ h2)
          · exact Or.inr h2

theorem treeGet_treeInsert (t : Tree) (k0 : Segment) (n0 : Node) (k : Segment) :
    treeGet (treeInsert t k0 n0) k = if k0 = k then some n0 else treeGet t k := by
  induction t with
  | nil =>
    by_cases h : k0 = k <;> simp [treeInsert, treeGet, h]
  | cons p rest ih =>
    obtain ⟨k', n'⟩ := p
    by_cases hlt : bytesLt k0 k' = true
    · by_cases h : k0 = k
      · subst h
        simp [treeInsert, hlt, treeGet]
      · simp [treeInsert, hlt, treeGet, h]
    · by_cases heq : k0 = k'
      · subst heq
        by_cases h : k0 = k
        · subst h
          simp [treeInsert, bytesLt_irrefl, treeGet]
        · simp [treeInsert, bytesLt_irrefl, treeGet, h]
      · simp only [treeInsert, hlt, if_false, heq, if_neg]
        by_cases h : k' = k
        · subst h
          have : ¬(k0 = k') := heq
          simp [treeGet, this]
        · simp [treeGet, h, ih]

theorem treeGet_eq_none_of_ne (t : Tree) (k : Segment)
    (h : ∀ q ∈ t, q.1 ≠ k) : treeGet t k = none := by
  induction t with
  | nil => rfl
  | cons p rest ih =>
    obtain ⟨k', n'⟩ := p
    have hk : k' ≠ k := h (k', n') (List.mem_cons_self _ _)
    simp only [treeGet, hk, if_neg, if_false]
    exact ih (fun q hq => h q (List.mem_cons_of_mem _ hq))

theorem sorted_insert (t : Tree) (k : Segment) (n : Node) (hs : TreeSorted t) :
    TreeSorted (treeInsert t k n) := by
  induction t with
  | nil => simp [treeInsert, TreeSorted]
  | cons p rest ih =>
    obtain ⟨k', n'⟩ := p
    have hhead := (List.pairwise_cons.mp hs).1
    have htail := (List.pairwise_cons.mp hs).2
    by_cases hlt : bytesLt k k' = true
    · simp only [treeInsert, hlt, if_pos]
      refine List.pairwise_cons.mpr ⟨?_, hs⟩
      intro q hq
      rcases List.mem_cons.mp hq with h | h
      · rw [h]
        exact hlt
      · exact bytesLt_trans _ _ _ hlt (hhead q h)
    · by_cases heq : k = k'
      · subst heq
        simp only [treeInsert, bytesLt_irrefl]
        exact List.pairwise_cons.mpr ⟨hhead, htail⟩
      · simp only [treeInsert, hlt, if_false, heq, if_neg]
        refine List.pairwise_cons.mpr ⟨?_, ih htail⟩
        intro q hq
        rcases mem_treeInsert rest k n q hq with h | h
        · exact hhead q h
        · rw [h]
          rcases bytesLt_total k k' heq with h2 | h2
          · exact absurd h2 (by simp [hlt])
          · exact h2

theorem sorted_head_not_in_tail (k : Segment) (n : Node) (rest : Tree)
    (hs : TreeSorted ((k, n) :: rest)) : treeGet rest k = none := by
  apply treeGet_eq_none_of_ne
  intro q hq hc
  have := (List.pairwise_cons.mp hs).1 q hq
  rw [hc] at this
  rw [bytesLt_irrefl] at this
  cases this

theorem sorted_get_none_of_lt (k1 k2 : Segment) (n2 : Node) (r2 : Tree)
    (hs : TreeSorted ((k2, n2) :: r2)) (hlt : bytesLt k1 k2 = true) :
    treeGet ((k2, n2) :: r2) k1 = none := by
  apply treeGet_eq_none_of_ne
  intro q hq hc
  rcases List.mem_cons.mp hq with h | h
  · rw [h] at hc
    simp only at hc
    rw [hc] at hlt
    rw [bytesLt_irrefl] at hlt
    cases hlt
  · have h2 := (List.pairwise_cons.mp hs).1 q h
    have h3 := bytesLt_trans _ _ _ hlt h2
    rw [hc] at h3
    rw [bytesLt_irrefl] at h3
    cases h3

/-- Sorted association lists with equal lookups are equal. -/
theorem sorted_ext : ∀ (t1 t2 : Tree), TreeSorted t1 → TreeSorted t2 →
    (∀ k, treeGet t1 k = treeGet t2 k) → t1 = t2 := by
  intro t1
  induction t1 with
  | nil =>
    intro t2 hs1 hs2 hlook
    cases t2 with
    | nil => rfl
    | cons p r2 =>
      obtain ⟨k2, n2⟩ := p
      have := hlook k2
      simp [treeGet] at this
  | cons p r1 ih =>
    obtain ⟨k1, n1⟩ := p
    intro t2 hs1 hs2 hlook
    cases t2 with
    | nil =>
      have := hlook k1
      simp [treeGet] at this
    | cons q r2 =>
      obtain ⟨k2, n2⟩ := q
      have hk : k1 = k2 := by
        by_contra hne
        rcases bytesLt_total k1 k2 hne with hlt | hlt
        · have h1 := hlook k1
          rw [sorted_get_none_of_lt k1 k2 n2 r2 hs2 hlt] at h1
          simp [treeGet] at h1
        · have h1 := hlook k2
          rw [sorted_get_none_of_lt k2 k1 n1 r1 hs1 hlt] at h1
          simp [treeGet] at h1
      subst hk
      have hn : n1 = n2 := by
        have h1 := hlook k1
        simp [treeGet] at h1
        exact h1
      subst hn
      have htails : ∀ k, treeGet r1 k = treeGet r2 k := by
        intro k
        by_cases hke : k1 = k
        · subst hke
          rw [sorted_head_not_in_tail k1 n1 r1 hs1, sorted_head_not_in_tail k1 n1 r2 hs2]
        · have h1 := hlook k
          simp only [treeGet, hke, if_neg, if_false] at h1
          exact h1
      rw [ih r2 (List.pairwise_cons.mp hs1).2 (List.pairwise_cons.mp hs2).2 htails]

/-- C9: tree hashing is canonical in ordering; inserting two distinct
bindings in either order yields the same hash, and any two sorted trees
with equal segment-to-node mappings hash identically. -/
theorem C9_hash_tree_canonical :
    (∀ (t : Tree) (a b : Segment) (na nb : Node), TreeSorted t → a ≠ b →
      hash_tree (treeInsert (treeInsert t a na) b nb) =
        hash_tree (treeInsert (treeInsert t b nb) a na)) ∧
    (∀ t1 t2 : Tree, TreeSorted t1 → TreeSorted t2 →
      (∀ k, treeGet t1 k = treeGet t2 k) → hash_tree t1 = hash_tree t2) := by
  constructor
  · intro t a b na nb hs hab
    have h1 : TreeSorted (treeInsert (treeInsert t a na) b nb) :=
      sorted_insert _ b nb (sorted_insert t a na hs)
    have h2 : TreeSorted (treeInsert (treeInsert t b nb) a na) :=
      sorted_insert _ a na (sorted_insert t b nb hs)
    have heq : treeInsert (treeInsert t a na) b nb =
        treeInsert (treeInsert t b nb) a na := by
      apply sorted_ext _ _ h1 h2
      intro k
      rw [treeGet_treeInsert, treeGet_treeInsert, treeGet_treeInsert, treeGet_treeInsert]
      by_cases hbk : b = k
      · subst hbk
        have hne : ¬(a = b) := hab
        simp [hne]
      · by_cases hak : a = k <;> simp [hbk, hak]
    rw [heq]
  · intro t1 t2 hs1 hs2 hlook
    rw [sorted_ext t1 t2 hs1 hs2 hlook]

/-- Witness for C9 at the two-element tree of the claim: a↦Leaf(v1),
b↦NonLeaf(h2) inserted in either order. -/
theorem C9_witness :
    hash_tree (treeInsert (treeInsert [] [97] ⟨NodeKind.Leaf, hash_blob [1]⟩) [98]
      ⟨NodeKind.NonLeaf, [7]⟩) =
    hash_tree (treeInsert (treeInsert [] [98] ⟨NodeKind.NonLeaf, [7]⟩) [97]
      ⟨NodeKind.Leaf, hash_blob [1]⟩) :=
  C9_hash_tree_canonical.1 [] [97] [98] ⟨NodeKind.Leaf, hash_blob [1]⟩
    ⟨NodeKind.NonLeaf, [7]⟩ (by simp [TreeSorted]) (by decide)

/-! ### The reachability sweep (C4) -/

theorem sweepChildren_unstaged (staged : List (EntryHash × Entry))
    (step : Entry → List (EntryHash × Entry) → Except MerkleError (List (EntryHash × Entry))) :
    ∀ (children : List (Segment × Node)) (batch : List (EntryHash × Entry)),
    (∀ p ∈ children, assocLookup staged p.2.entry_hash = none) →
    sweepChildren staged step children batch = .ok batch := by
  intro children
  induction children with
  | nil => intro batch h; rfl
  | cons p rest ih =>
    obtain ⟨seg, n⟩ := p
    intro batch h
    have hn := h (seg, n) (List.mem_cons_self _ _)
    simp only [sweepChildren, hn]
    exact ih batch (fun q hq => h q (List.mem_cons_of_mem _ hq))

theorem sweepChildren_mono (staged : List (EntryHash × Entry))
    (step : Entry → List (EntryHash × Entry) → Except MerkleError (List (EntryHash × Entry)))
    (hstep : ∀ e batch batch2, step e batch = .ok batch2 → ∃ ext, batch2 = batch ++ ext) :
    ∀ (children : List (Segment × Node)) (batch batch2 : List (EntryHash × Entry)),
    sweepChildren staged step children batch = .ok batch2 → ∃ ext, batch2 = batch ++ ext := by
  intro children
  induction children with
  | nil =>
    intro batch batch2 h
    simp only [sweepChildren] at h
    injection h with h
    exact ⟨[], by rw [← h]; simp⟩
  | cons p rest ih =>
    obtain ⟨seg, n⟩ := p
    intro batch batch2 h
    simp only [sweepChildren] at h
    cases hl : assocLookup staged n.entry_hash with
    | none =>
      rw [hl] at h
      exact ih batch batch2 h
    | some e =>
      rw [hl] at h
      dsimp only at h
      cases hs : step e batch with
      | error err => rw [hs] at h; cases h
      | ok b1 =>
        rw [hs] at h
        obtain ⟨e1, he1⟩ := hstep e batch b1 hs
        obtain ⟨e2, he2⟩ := ih b1 batch2 h
        exact ⟨e1 ++ e2, by rw [he2, he1]; simp⟩

theorem get_entries_recursively_self_first (s : MerkleStorage) :
    ∀ (fuel : Nat) (e : Entry) (batch batch2 : List (EntryHash × Entry)),
    get_entries_recursively s fuel e batch = .ok batch2 →
    ∃ ext, batch2 = batch ++ (hash_entry e, e) :: ext := by
  intro fuel
  induction fuel with
  | zero =>
    intro e batch batch2 h
    cases h
  | succ fuel ih =>
    intro e batch batch2 h
    cases e with
    | Blob v =>
      simp only [get_entries_recursively] at h
      injection h with h
      exact ⟨[], by rw [← h]⟩
    | Tree t =>
      simp only [get_entries_recursively] at h
      obtain ⟨ext, hext⟩ := sweepChildren_mono s.staged (get_entries_recursively s fuel)
        (fun e b b2 hb => by
          obtain ⟨x, hx⟩ := ih e b b2 hb
          exact ⟨(hash_entry e, e) :: x, hx⟩)
        t (batch ++ [(hash_entry (Entry.Tree t), Entry.Tree t)]) batch2 h
      exact ⟨ext, by rw [hext]; simp⟩
    | Commit c =>
      simp only [get_entries_recursively] at h
      cases hge : get_entry s c.root_hash with
      | error err => rw [hge] at h; cases h
      | ok e2 =>
        rw [hge] at h
        dsimp only at h
        obtain ⟨x, hx⟩ := ih e2 _ batch2 h
        exact ⟨(hash_entry e2, e2) :: x, by rw [hx]; simp⟩

/-- Amended C4: the sweep is a preorder walk that puts (hash, entry) for
the entry itself first, treats blobs as leaves, recurses only into staged
children and into commit roots — but it tracks no visited set, so a hash
reachable along two paths recurs in the batch. -/
theorem C4_sweep_amended :
    (∀ (s : MerkleStorage) (fuel : Nat) (v : ContextValue)
      (batch : List (EntryHash × Entry)),
      get_entries_recursively s (fuel + 1) (Entry.Blob v) batch =
        .ok (batch ++ [(hash_blob v, Entry.Blob v)])) ∧
    (∀ (s : MerkleStorage) (fuel : Nat) (t : Tree) (batch : List (EntryHash × Entry)),
      (∀ p ∈ t, assocLookup s.staged p.2.entry_hash = none) →
      get_entries_recursively s (fuel + 1) (Entry.Tree t) batch =
        .ok (batch ++ [(hash_tree t, Entry.Tree t)])) ∧
    (∀ (s : MerkleStorage) (fuel : Nat) (c : Commit) (batch : List (EntryHash × Entry)),
      get_entries_recursively s (fuel + 1) (Entry.Commit c) batch =
        match get_entry s c.root_hash with
        | .error err => .error err
        | .ok e => get_entries_recursively s fuel e
            (batch ++ [(hash_commit c, Entry.Commit c)])) ∧
    (∀ (s : MerkleStorage) (fuel : Nat) (e : Entry) (batch batch2 : List (EntryHash × Entry)),
      get_entries_recursively s fuel e batch = .ok batch2 →
      ∃ ext, batch2 = batch ++ (hash_entry e, e) :: ext) := by
  refine ⟨?_, ?_, ?_, get_entries_recursively_self_first⟩
  · intro s fuel v batch
    rfl
  · intro s fuel t batch h
    simp only [get_entries_recursively]
    exact sweepChildren_unstaged s.staged _ t _ h
  · intro s fuel c batch
    rfl

/-- Counterexample to C4 as stated: the sweep revisits the shared subtree,
so the batch contains a repeated hash (no visited set is tracked). -/
theorem C4_counterexample :
    c4_batch.toOption.map (fun b => decide (b.map Prod.fst).Nodup) = some false := by
  decide

/-- Witness for the amended C4: the sweep of a tree with no staged
children adds exactly the tree itself. -/
theorem C4_witness :
    get_entries_recursively MerkleStorage.new 1
      (Entry.Tree [([97], ⟨NodeKind.Leaf, [9]⟩)]) [] =
      .ok [(hash_tree [([97], ⟨NodeKind.Leaf, [9]⟩)],
        Entry.Tree [([97], ⟨NodeKind.Leaf, [9]⟩)])] :=
  C4_sweep_amended.2.1 MerkleStorage.new 0 [([97], ⟨NodeKind.Leaf, [9]⟩)] [] (by decide)

/-! ### Deletion bugs (C2, C8) -/

/-- C2 scenario evaluated on the code: deleting the sole key a/b/c
collapses every tree on its path, which the code treats as the
delete-at-root no-op, so commit c2 still contains [2] at a/b/c; the claim
expects ValueNotFound.  Reads of c1 are stable as claimed. -/
theorem C2_history_bug :
    (delete c2_c1.2 [[97], [98], [99]]).1 = .ok () ∧
    c2_c2.1.toOption.isSome = true ∧
    get_history c2_c2.2 c2_c1h [[97], [98], [99]] = .ok [2] ∧
    get_history c2_c2.2 c2_c2h [[97], [98], [99]] = .ok [2] ∧
    c2_c1h ≠ c2_c2h ∧
    c2_s3.current_stage_tree = c2_c1.2.current_stage_tree := by
  decide

/-- C8 evaluated on the code: deleting the sole key a is accepted but is a
no-op (get still returns [1], not ValueNotFound), and deleting the absent
key a/b cascades through the empty find_tree result and removes the
existing blob a, changing the staging root hash. -/
theorem C8_delete_bug :
    (delete c8_x1 [[97]]).1 = .ok () ∧
    (get c8_x2 [[97]]).1 = .ok [1] ∧
    (delete c8_w1 [[97], [98]]).1 = .ok () ∧
    (get c8_w2 [[97]]).1 = .error (MerkleError.ValueNotFound [[97]]) ∧
    hash_tree (c8_w2.current_stage_tree.getD []) ≠
      hash_tree (c8_w1.current_stage_tree.getD []) := by
  decide

/-! ### Copy (C7) -/

theorem assocLookup_mem (l : List (EntryHash × Entry)) (h : EntryHash) (e : Entry)
    (hl : assocLookup l h = some e) : (h, e) ∈ l := by
  induction l with
  | nil => cases hl
  | cons p rest ih =>
    obtain ⟨k, v⟩ := p
    simp only [assocLookup] at hl
    by_cases hk : k = h
    · rw [if_pos hk] at hl
      injection hl with hv
      subst hk
      subst hv
      exact List.mem_cons_self _ _
    · rw [if_neg hk] at hl
      exact List.mem_cons_of_mem _ (ih hl)

theorem assocLookup_isSome_of_mem (l : List (EntryHash × Entry)) (h : EntryHash) (e : Entry)
    (hmem : (h, e) ∈ l) : ∃ e2, assocLookup l h = some e2 := by
  induction l with
  | nil => cases hmem
  | cons p rest ih =>
    obtain ⟨k, v⟩ := p
    simp only [assocLookup]
    by_cases hk : k = h
    · exact ⟨v, by rw [if_pos hk]⟩
    · rw [if_neg hk]
      rcases List.mem_cons.mp hmem with hx | hx
      · injection hx with h1 h2
        exact absurd h1.symm hk
      · exact ih hx

theorem get_entry_mem (s : MerkleStorage) (h : EntryHash) (e : Entry)
    (hget : get_entry s h = .ok e) : (h, e) ∈ s.staged ∨ (h, e) ∈ s.db := by
  simp only [get_entry] at hget
  cases hs : assocLookup s.staged h with
  | some e0 =>
    rw [hs] at hget
    dsimp only at hget
    injection hget with he
    subst he
    exact Or.inl (assocLookup_mem _ _ _ hs)
  | none =>
    rw [hs] at hget
    dsimp only at hget
    cases hd : assocLookup s.db h with
    | some e0 =>
      rw [hd] at hget
      dsimp only at hget
      injection hget with he
      subst he
      exact Or.inr (assocLookup_mem _ _ _ hd)
    | none =>
      rw [hd] at hget
      dsimp only at hget
      cases hget

/-- In a collision-free state any binding present in the staging area or
the DB is what `get_entry` returns for its hash. -/
theorem get_entry_of_mem_consistent (s : MerkleStorage) (hcons : StoreConsistent s)
    (h : EntryHash) (e : Entry)
    (hmem : (h, e) ∈ s.staged ∨ (h, e) ∈ s.db) : get_entry s h = .ok e := by
  have hmem2 : ((h, e) : EntryHash × Entry) ∈ s.staged ++ s.db := List.mem_append.mpr hmem
  simp only [get_entry]
  cases hs : assocLookup s.staged h with
  | some e0 =>
    have hm0 : ((h, e0) : EntryHash × Entry) ∈ s.staged ++ s.db :=
      List.mem_append.mpr (Or.inl (assocLookup_mem _ _ _ hs))
    have he : e0 = e := hcons _ hm0 _ hmem2 rfl
    rw [he]
  | none =>
    rcases hmem with hm | hm
    · obtain ⟨e2, he2⟩ := assocLookup_isSome_of_mem _ _ _ hm
      rw [hs] at he2
      cases he2
    · cases hd : assocLookup s.db h with
      | some e0 =>
        have hm0 : ((h, e0) : EntryHash × Entry) ∈ s.staged ++ s.db :=
          List.mem_append.mpr (Or.inr (assocLookup_mem _ _ _ hd))
        have he : e0 = e := hcons _ hm0 _ hmem2 rfl
        rw [he]
      | none =>
        obtain ⟨e2, he2⟩ := assocLookup_isSome_of_mem _ _ _ hm
        rw [hd] at he2
        cases he2

/-- Resolution is preserved when the staging area grows inside a
collision-free final state: what a smaller state resolved, the larger one
resolves to the same entry. -/
theorem get_entry_pres (sOut s1 s2 : MerkleStorage) (hcons : StoreConsistent sOut)
    (hdb1 : s1.db = s2.db) (hdb2 : s2.db = sOut.db)
    (hsub1 : ∀ q ∈ s1.staged, q ∈ s2.staged)
    (hsub2 : ∀ q ∈ s2.staged, q ∈ sOut.staged)
    (h : EntryHash) (e : Entry) (hget : get_entry s1 h = .ok e) :
    get_entry s2 h = .ok e := by
  rcases get_entry_mem s1 h e hget with hm | hm
  · have hm2 : ((h, e) : EntryHash × Entry) ∈ s2.staged := hsub1 _ hm
    have hmOut : ((h, e) : EntryHash × Entry) ∈ sOut.staged ++ sOut.db :=
      List.mem_append.mpr (Or.inl (hsub2 _ hm2))
    simp only [get_entry]
    cases hs : assocLookup s2.staged h with
    | some e0 =>
      have hm0 : ((h, e0) : EntryHash × Entry) ∈ sOut.staged ++ sOut.db :=
        List.mem_append.mpr (Or.inl (hsub2 _ (assocLookup_mem _ _ _ hs)))
      have he : e0 = e := hcons _ hm0 _ hmOut rfl
      rw [he]
    | none =>
      obtain ⟨e2, he2⟩ := assocLookup_isSome_of_mem _ _ _ hm2
      rw [hs] at he2
      cases he2
  · have hmOut : ((h, e) : EntryHash × Entry) ∈ sOut.staged ++ sOut.db := by
      refine List.mem_append.mpr (Or.inr ?_)
      rw [← hdb2, ← hdb1]
      exact hm
    simp only [get_entry]
    cases hs : assocLookup s2.staged h with
    | some e0 =>
      have hm0 : ((h, e0) : EntryHash × Entry) ∈ sOut.staged ++ sOut.db :=
        List.mem_append.mpr (Or.inl (hsub2 _ (assocLookup_mem _ _ _ hs)))
      have he : e0 = e := hcons _ hm0 _ hmOut rfl
      rw [he]
    | none =>
      cases hd : assocLookup s2.db h with
      | some e0 =>
        have hm0 : ((h, e0) : EntryHash × Entry) ∈ sOut.staged ++ sOut.db := by
          refine List.mem_append.mpr (Or.inr ?_)
          rw [← hdb2]
          exact assocLookup_mem _ _ _ hd
        have he : e0 = e := hcons _ hm0 _ hmOut rfl
        rw [he]
      | none =>
        rw [← hdb1] at hd
        obtain ⟨e2, he2⟩ := assocLookup_isSome_of_mem _ _ _ hm
        rw [hd] at he2
        cases he2

/-- `find_tree` success is preserved when the staging area grows inside a
collision-free final state. -/
theorem find_tree_pres (sOut s1 s2 : MerkleStorage) (hcons : StoreConsistent sOut)
    (hdb1 : s1.db = s2.db) (hdb2 : s2.db = sOut.db)
    (hsub1 : ∀ q ∈ s1.staged, q ∈ s2.staged)
    (hsub2 : ∀ q ∈ s2.staged, q ∈ sOut.staged) :
    ∀ (path : List Segment) (t r : Tree),
    find_tree s1 t path = .ok r → find_tree s2 t path = .ok r := by
  intro path
  induction path with
  | nil =>
    intro t r hft
    exact hft
  | cons k ks ih =>
    intro t r hft
    simp only [find_tree] at hft ⊢
    cases htg : treeGet t k with
    | none =>
      rw [htg] at hft
      exact hft
    | some n =>
      rw [htg] at hft
      dsimp only at hft ⊢
      cases hge : get_entry s1 n.entry_hash with
      | error e2 =>
        rw [hge] at hft
        dsimp only at hft
        cases hft
      | ok e2 =>
        rw [hge] at hft
        rw [get_entry_pres sOut s1 s2 hcons hdb1 hdb2 hsub1 hsub2 _ _ hge]
        cases e2 with
        | Tree t2 =>
          dsimp only at hft ⊢
          exact ih t2 r hft
        | Blob v => exact hft
        | Commit c =>
          dsimp only at hft
          cases hft

/-- Reading from the empty tree always yields the empty tree. -/
theorem find_tree_nil_tree (s : MerkleStorage) :
    ∀ (q : List Segment), find_tree s [] q = .ok [] := by
  intro q
  cases q with
  | nil => rfl
  | cons q0 qs => simp [find_tree, treeGet]

/-- `find_tree` splits over path concatenation. -/
theorem find_tree_append (s : MerkleStorage) :
    ∀ (p q : List Segment) (t : Tree),
    find_tree s t (p ++ q) =
      match find_tree s t p with
      | .ok t2 => find_tree s t2 q
      | .error e => .error e := by
  intro p
  induction p with
  | nil => intro q t; rfl
  | cons k ks ih =>
    intro q t
    simp only [List.cons_append, find_tree]
    cases treeGet t k with
    | none => exact (find_tree_nil_tree s q).symm
    | some n =>
      dsimp only
      cases get_entry s n.entry_hash with
      | error e => rfl
      | ok e =>
        cases e with
        | Tree t2 => exact ih q t2
        | Blob v => exact (find_tree_nil_tree s q).symm
        | Commit c => rfl

/-- A non-empty tree returned by a non-trivial `find_tree` walk was
resolved from the store at the last step: some hash binds it. -/
theorem find_tree_last_resolved (s : MerkleStorage) :
    ∀ (path : List Segment) (t r : Tree), path ≠ [] →
    find_tree s t path = .ok r → r ≠ [] →
    ∃ h, get_entry s h = .ok (Entry.Tree r) := by
  intro path
  induction path with
  | nil =>
    intro t r hne
    exact absurd rfl hne
  | cons k ks ih =>
    intro t r _ hft hr
    simp only [find_tree] at hft
    cases htg : treeGet t k with
    | none =>
      rw [htg] at hft
      dsimp only at hft
      injection hft with h1
      exact absurd h1.symm hr
    | some n =>
      rw [htg] at hft
      dsimp only at hft
      cases hge : get_entry s n.entry_hash with
      | error e2 =>
        rw [hge] at hft
        dsimp only at hft
        cases hft
      | ok e2 =>
        rw [hge] at hft
        cases e2 with
        | Tree t2 =>
          dsimp only at hft
          cases ks with
          | nil =>
            injection hft with h1
            subst h1
            exact ⟨n.entry_hash, hge⟩
          | cons k2 ks2 =>
            exact ih t2 r (by simp) hft hr
        | Blob v =>
          dsimp only at hft
          injection hft with h1
          exact absurd h1.symm hr
        | Commit c =>
          dsimp only at hft
          cases hft

/-- Two keys, neither a prefix of the other, split as a shared prefix
followed by distinct segments. -/
theorem prefix_free_split :
    ∀ (a b : ContextKey), ¬ List.IsPrefix a b → ¬ List.IsPrefix b a →
    ∃ p x y xs ys, a = p ++ x :: xs ∧ b = p ++ y :: ys ∧ x ≠ y := by
  intro a
  induction a with
  | nil =>
    intro b hab _
    exact absurd (⟨b, rfl⟩ : List.IsPrefix [] b) hab
  | cons x xs ih =>
    intro b hab hba
    cases b with
    | nil => exact absurd (⟨x :: xs, rfl⟩ : List.IsPrefix [] (x :: xs)) hba
    | cons y ys =>
      by_cases hxy : x = y
      · subst hxy
        have hab2 : ¬ List.IsPrefix xs ys := by
          intro hc
          exact hab (List.cons_prefix_cons.mpr ⟨rfl, hc⟩)
        have hba2 : ¬ List.IsPrefix ys xs := by
          intro hc
          exact hba (List.cons_prefix_cons.mpr ⟨rfl, hc⟩)
        obtain ⟨p, x2, y2, xs2, ys2, h1, h2, h3⟩ := ih ys hab2 hba2
        exact ⟨x :: p, x2, y2, xs2, ys2, by rw [h1]; rfl, by rw [h2]; rfl, h3⟩
      · exact ⟨[], x, y, xs, ys, rfl, rfl, hxy⟩

/-- Splitting `l ++ [x]` at an interior cons: the cons point is either the
final singleton or strictly inside `l`. -/
theorem append_singleton_split {α : Type} (l : List α) (x : α) (p : List α) (y : α)
    (rest : List α) (h : l ++ [x] = p ++ y :: rest) :
    (p = l ∧ y = x ∧ rest = []) ∨
    ∃ rest2, rest = rest2 ++ [x] ∧ l = p ++ y :: rest2 := by
  rcases List.eq_nil_or_concat rest with hr | ⟨rest2, a, hr⟩
  · subst hr
    obtain ⟨h3, h4⟩ := List.append_inj' h (by rfl)
    injection h4 with h5 h6
    exact Or.inl ⟨h3.symm, h5.symm, rfl⟩
  · subst hr
    have h7 : l ++ [x] = (p ++ y :: rest2) ++ [a] := by
      rw [h]
      simp
    obtain ⟨h3, h4⟩ := List.append_inj' h7 (by rfl)
    injection h4 with h5 h6
    subst h5
    exact Or.inr ⟨rest2, by simp, h3⟩

/-- An insert run of `compute_new_root_with_change` preserves reads along
every path that diverges from the edited path before its end: in the
final state (assumed collision free), walking the diverging path from the
tree the new root hash resolves to finds exactly what the original walk
found in the entry state. -/
theorem compute_new_root_rev_insert_other_path :
    ∀ (revKey : List Segment) (s : MerkleStorage) (root : Tree) (node : Node)
      (H : EntryHash) (sOut : MerkleStorage),
    node.node_kind = NodeKind.NonLeaf →
    compute_new_root_rev s root revKey (some node) = (.ok H, sOut) →
    StoreConsistent sOut →
    ∀ (p : List Segment) (β : Segment) (brest : List Segment)
      (α : Segment) (rest : List Segment) (r : Tree),
    revKey.reverse = p ++ β :: brest → α ≠ β →
    find_tree s root (p ++ α :: rest) = .ok r →
    ∀ T, get_entry sOut H = .ok (Entry.Tree T) →
    find_tree sOut T (p ++ α :: rest) = .ok r := by
  intro revKey
  induction revKey with
  | nil =>
    intro s root node H sOut hkind heq hcons p β brest α rest r hsplit hαβ hftr T hTop
    simp at hsplit
  | cons last revPath ih =>
    intro s root node H sOut hkind heq hcons p β brest α rest r hsplit hαβ hftr T hTop
    simp only [compute_new_root_rev] at heq
    cases hft : find_tree s root revPath.reverse with
    | error e =>
      rw [hft] at heq
      cases heq
    | ok tree0 =>
      rw [hft] at heq
      dsimp only at heq
      have hnotE : ¬((treeInsert tree0 last node).isEmpty = true) := by
        intro hc
        cases htI : treeInsert tree0 last node with
        | nil => exact treeInsert_ne_nil tree0 last node htI
        | cons a b =>
          rw [htI] at hc
          simp [List.isEmpty] at hc
      rw [if_neg hnotE] at heq
      obtain ⟨new2, hstg, hlen, hdesc, hhead⟩ :=
        compute_new_root_rev_insert_sound revPath
          (put_to_staging_area s (hash_tree (treeInsert tree0 last node))
            (Entry.Tree (treeInsert tree0 last node)))
          root (get_non_leaf (hash_tree (treeInsert tree0 last node))) H sOut rfl heq
      have hdbOut : sOut.db = s.db := by
        obtain ⟨-, f2, -, -⟩ := compute_new_root_rev_frame revPath
          (put_to_staging_area s (hash_tree (treeInsert tree0 last node))
            (Entry.Tree (treeInsert tree0 last node)))
          root (some (get_non_leaf (hash_tree (treeInsert tree0 last node))))
        rw [heq] at f2
        exact f2
      have hsubPut : ∀ q ∈ s.staged,
          q ∈ (put_to_staging_area s (hash_tree (treeInsert tree0 last node))
            (Entry.Tree (treeInsert tree0 last node))).staged := by
        intro q hq
        exact List.mem_cons_of_mem _ hq
      have hsubOut : ∀ q ∈ (put_to_staging_area s (hash_tree (treeInsert tree0 last node))
            (Entry.Tree (treeInsert tree0 last node))).staged, q ∈ sOut.staged := by
        intro q hq
        rw [hstg]
        exact List.mem_append.mpr (Or.inr hq)
      have hsubSOut : ∀ q ∈ s.staged, q ∈ sOut.staged := by
        intro q hq
        exact hsubOut _ (hsubPut _ hq)
      have hsplit2 : revPath.reverse ++ [last] = p ++ β :: brest := by
        rw [← List.reverse_cons]
        exact hsplit
      rcases append_singleton_split revPath.reverse last p β brest hsplit2 with
        ⟨hp, hβ, hbr⟩ | ⟨brest2, hbr, hp⟩
      · subst hp
        rw [hβ] at hαβ
        rw [find_tree_append] at hftr
        rw [hft] at hftr
        dsimp only at hftr
        have hne2 : ∀ q ∈ new2, q.1 ≠ hash_tree (treeInsert tree0 last node) := by
          intro q hq hc
          have hl := hlen q hq
          rw [hc] at hl
          exact lt_irrefl _ hl
        have hgeTree : get_entry sOut (hash_tree (treeInsert tree0 last node)) =
            .ok (Entry.Tree (treeInsert tree0 last node)) := by
          simp only [get_entry, hstg]
          rw [assocLookup_append_of_ne _ _ _ hne2]
          simp [assocLookup, put_to_staging_area]
        have hpath : find_tree sOut T revPath.reverse =
            .ok (treeInsert tree0 last node) :=
          find_tree_of_descend sOut revPath.reverse
            { node_kind := NodeKind.NonLeaf, entry_hash := H }
            (get_non_leaf (hash_tree (treeInsert tree0 last node))) T
            (treeInsert tree0 last node) hdesc hTop hgeTree
        rw [find_tree_append, hpath]
        dsimp only
        simp only [find_tree] at hftr ⊢
        rw [treeGet_treeInsert]
        rw [if_neg (fun hc => hαβ hc.symm)]
        cases htg2 : treeGet tree0 α with
        | none =>
          rw [htg2] at hftr
          exact hftr
        | some n2 =>
          rw [htg2] at hftr
          dsimp only at hftr ⊢
          cases hge2 : get_entry s n2.entry_hash with
          | error e2 =>
            rw [hge2] at hftr
            dsimp only at hftr
            cases hftr
          | ok e2 =>
            rw [hge2] at hftr
            rw [get_entry_pres sOut s sOut hcons hdbOut.symm rfl hsubSOut
              (fun q hq => hq) _ _ hge2]
            cases e2 with
            | Tree t2 =>
              dsimp only at hftr ⊢
              exact find_tree_pres sOut s sOut hcons hdbOut.symm rfl hsubSOut
                (fun q hq => hq) rest t2 r hftr
            | Blob v => exact hftr
            | Commit c =>
              dsimp only at hftr
              cases hftr
      · have hftr2 : find_tree
            (put_to_staging_area s (hash_tree (treeInsert tree0 last node))
              (Entry.Tree (treeInsert tree0 last node)))
            root (p ++ α :: rest) = .ok r :=
          find_tree_pres sOut s
            (put_to_staging_area s (hash_tree (treeInsert tree0 last node))
              (Entry.Tree (treeInsert tree0 last node)))
            hcons rfl hdbOut.symm hsubPut hsubOut _ root r hftr
        exact ih (put_to_staging_area s (hash_tree (treeInsert tree0 last node))
            (Entry.Tree (treeInsert tree0 last node))) root
          (get_non_leaf (hash_tree (treeInsert tree0 last node))) H sOut rfl heq hcons
          p β brest2 α rest r hp hαβ hftr2 T hTop

/-- Counterexample to C7 as stated: for the overlapping pair a = [x],
b = [x, y], the copy changes the source subtree under a, and the suffix
[y, c] present under a after the copy reads differently under b. -/
theorem C7_counterexample :
    (copy c7_z1 [[120]] [[120], [121]]).1 = .ok () ∧
    find_tree c7_z2 (c7_z2.current_stage_tree.getD []) [[120]] ≠
      find_tree c7_z1 (c7_z1.current_stage_tree.getD []) [[120]] ∧
    (get c7_z2 [[120], [121], [99]]).1 = .ok [1] ∧
    (get c7_z2 [[120], [121], [121], [99]]).1 =
      .error (MerkleError.ValueNotFound [[120], [121], [121], [99]]) := by
  decide

/-- Amended C7, universal over prefix-disjoint key pairs: on a
hash-consistent, collision-free state, a successful copy(a, b) with
neither key a prefix of the other leaves the subtree found under a
exactly as the pre-copy walk found it, grafts at b a node referencing
that subtree by its hash (structural sharing, no duplication), and makes
get(b ++ suffix) return the value of get(a ++ suffix) for every non-empty
suffix present under a after the copy. -/
theorem C7_copy_disjoint_law (s : MerkleStorage) (a b : ContextKey) (s2 : MerkleStorage)
    (hab : ¬ List.IsPrefix a b) (hba : ¬ List.IsPrefix b a)
    (hok : copy s a b = (.ok (), s2))
    (hwf : StoreWF s2) (hcons : StoreConsistent s2) :
    ∃ src t2, s2.current_stage_tree = some t2 ∧
      find_tree (get_staged_root s).2 (get_staged_root s).1 a = .ok src ∧
      find_tree s2 t2 a = .ok src ∧
      descendNode s2 { node_kind := NodeKind.NonLeaf, entry_hash := hash_tree t2 } b =
        .ok (get_non_leaf (hash_tree src)) ∧
      (∀ suffix v, suffix ≠ [] →
        (get s2 (a ++ suffix)).1 = .ok v → (get s2 (b ++ suffix)).1 = .ok v) := by
  have ha_ne : a ≠ [] := by
    intro hc
    subst hc
    exact hab ⟨b, rfl⟩
  obtain ⟨pfx, x, y, xs, ys, hax, hby, hxy⟩ := prefix_free_split a b hab hba
  obtain ⟨root, s1, hgs⟩ : ∃ root s1, get_staged_root s = (root, s1) := ⟨_, _, rfl⟩
  simp only [copy.eq_def, hgs, _copy.eq_def, compute_new_root_with_change.eq_def] at hok
  cases hfta : find_tree s1 root a with
  | error e =>
    rw [hfta] at hok
    dsimp only at hok
    injection hok with h1 h2
    cases h1
  | ok src =>
    rw [hfta] at hok
    dsimp only at hok
    rcases hcnr : compute_new_root_rev s1 root b.reverse (some (get_non_leaf (hash_tree src)))
      with ⟨res, s3⟩
    rw [hcnr] at hok
    cases res with
    | error e => simp at hok
    | ok H =>
      dsimp only at hok
      cases hgt : get_tree s3 H with
      | error e =>
        rw [hgt] at hok
        simp at hok
      | ok t_top =>
        rw [hgt] at hok
        dsimp only at hok
        injection hok with hok1 hok2
        subst hok2
        obtain ⟨new2, hstg, hlen, hdesc, hhead⟩ :=
          compute_new_root_rev_insert_sound b.reverse s1 root
            (get_non_leaf (hash_tree src)) H s3 rfl hcnr
        rw [List.reverse_reverse] at hdesc
        have hdb31 : s3.db = s1.db := by
          obtain ⟨-, f2, -, -⟩ := compute_new_root_rev_frame b.reverse s1 root
            (some (get_non_leaf (hash_tree src)))
          rw [hcnr] at f2
          exact f2
        have hst_eq : ({ s3 with current_stage_tree := some t_top } : MerkleStorage).staged
            = s3.staged := rfl
        have hdb_eq : ({ s3 with current_stage_tree := some t_top } : MerkleStorage).db
            = s3.db := rfl
        have hTop3 : get_entry s3 H = .ok (Entry.Tree t_top) := by
          simp only [get_tree] at hgt
          cases hge : get_entry s3 H with
          | error e2 =>
            rw [hge] at hgt
            dsimp only at hgt
            cases hgt
          | ok e2 =>
            rw [hge] at hgt
            cases e2 with
            | Tree tt =>
              dsimp only at hgt
              injection hgt with h
              subst h
              rfl
            | Blob v2 =>
              dsimp only at hgt
              cases hgt
            | Commit c2 =>
              dsimp only at hgt
              cases hgt
        have hTop2 : get_entry { s3 with current_stage_tree := some t_top } H =
            .ok (Entry.Tree t_top) := by
          rw [get_entry_congr { s3 with current_stage_tree := some t_top } s3 rfl rfl]
          exact hTop3
        have hHt : hash_tree t_top = H := by
          rcases get_entry_mem _ _ _ hTop2 with hm | hm
          · exact hwf.1 _ hm
          · exact hwf.2 _ hm
        have hcons3 : StoreConsistent s3 := hcons
        have hsrc_pres : find_tree s3 t_top a = .ok src := by
          have hb_split : b.reverse.reverse = pfx ++ y :: ys := by
            rw [List.reverse_reverse]
            exact hby
          have hfta2 : find_tree s1 root (pfx ++ x :: xs) = .ok src := by
            rw [← hax]
            exact hfta
          have h2 := compute_new_root_rev_insert_other_path b.reverse s1 root
            (get_non_leaf (hash_tree src)) H s3 rfl hcnr hcons3
            pfx y ys x xs src hb_split hxy hfta2 t_top hTop3
          rw [← hax] at h2
          exact h2
        have hsrc_pres2 : find_tree { s3 with current_stage_tree := some t_top } t_top a
            = .ok src := by
          rw [find_tree_congr { s3 with current_stage_tree := some t_top } s3 rfl rfl]
          exact hsrc_pres
        have hdesc2 : descendNode { s3 with current_stage_tree := some t_top }
            { node_kind := NodeKind.NonLeaf, entry_hash := H } b =
            .ok (get_non_leaf (hash_tree src)) := by
          rw [descendNode_congr { s3 with current_stage_tree := some t_top } s3 rfl rfl]
          exact hdesc
        have hgsr2 : get_staged_root { s3 with current_stage_tree := some t_top } =
            (t_top, { s3 with current_stage_tree := some t_top }) := by
          simp [get_staged_root.eq_def]
        have hgt2 : get_tree { s3 with current_stage_tree := some t_top } H = .ok t_top := by
          simp only [get_tree, hTop2]
        refine ⟨src, t_top, rfl, ?_, hsrc_pres2, ?_, ?_⟩
        · rw [hgs]
          exact hfta
        · rw [hHt]
          exact hdesc2
        · intro suffix v hsuf hget
          obtain ⟨sfx, file, hsf⟩ : ∃ sfx file, suffix = sfx ++ [file] := by
            rcases List.eq_nil_or_concat suffix with h | ⟨L, bb, h⟩
            · exact absurd h hsuf
            · exact ⟨L, bb, by rw [h]; simp⟩
          subst hsf
          have hrev_a : (a ++ (sfx ++ [file])).reverse = file :: (a ++ sfx).reverse := by
            simp
          simp only [get.eq_def, hgsr2] at hget
          rw [hHt] at hget
          simp only [get_from_tree.eq_def, hrev_a] at hget
          rw [hgt2] at hget
          dsimp only at hget
          rw [List.reverse_reverse] at hget
          rw [find_tree_append] at hget
          rw [hsrc_pres2] at hget
          dsimp only at hget
          cases hfsfx : find_tree { s3 with current_stage_tree := some t_top } src sfx with
          | error e =>
            rw [hfsfx] at hget
            dsimp only at hget
            cases hget
          | ok Tf =>
            rw [hfsfx] at hget
            dsimp only at hget
            cases htf : treeGet Tf file with
            | none =>
              rw [htf] at hget
              dsimp only at hget
              cases hget
            | some nodev =>
              rw [htf] at hget
              dsimp only at hget
              cases hgev : get_entry { s3 with current_stage_tree := some t_top }
                  nodev.entry_hash with
              | error e2 =>
                rw [hgev] at hget
                dsimp only at hget
                cases hget
              | ok ev =>
                rw [hgev] at hget
                cases ev with
                | Tree tv =>
                  dsimp only at hget
                  cases hget
                | Commit cv =>
                  dsimp only at hget
                  cases hget
                | Blob bv =>
                  dsimp only at hget
                  injection hget with hbv
                  subst hbv
                  have hsrc_ne : src ≠ [] := by
                    intro hc
                    subst hc
                    rw [find_tree_nil_tree] at hfsfx
                    injection hfsfx with hTf
                    subst hTf
                    cases htf
                  obtain ⟨hL, hgeL⟩ := find_tree_last_resolved s1 a root src ha_ne hfta hsrc_ne
                  have hmemL : ((hL, Entry.Tree src) ∈
                      ({ s3 with current_stage_tree := some t_top } : MerkleStorage).staged) ∨
                      ((hL, Entry.Tree src) ∈
                      ({ s3 with current_stage_tree := some t_top } : MerkleStorage).db) := by
                    rcases get_entry_mem s1 hL _ hgeL with hm | hm
                    · left
                      rw [hst_eq, hstg]
                      exact List.mem_append.mpr (Or.inr hm)
                    · right
                      rw [hdb_eq, hdb31]
                      exact hm
                  have hLhash : hash_tree src = hL := by
                    rcases hmemL with hm | hm
                    · exact hwf.1 _ hm
                    · exact hwf.2 _ hm
                  have hgeSrc : get_entry { s3 with current_stage_tree := some t_top }
                      (hash_tree src) = .ok (Entry.Tree src) := by
                    rw [hLhash]
                    exact get_entry_of_mem_consistent _ hcons _ _ hmemL
                  have hftb : find_tree { s3 with current_stage_tree := some t_top } t_top b
                      = .ok src :=
                    find_tree_of_descend _ b
                      { node_kind := NodeKind.NonLeaf, entry_hash := H }
                      (get_non_leaf (hash_tree src)) t_top src hdesc2 hTop2 hgeSrc
                  have hrev_b : (b ++ (sfx ++ [file])).reverse =
                      file :: (b ++ sfx).reverse := by
                    simp
                  simp only [get.eq_def, hgsr2]
                  rw [hHt]
                  simp only [get_from_tree.eq_def, hrev_b]
                  rw [hgt2]
                  dsimp only
                  rw [List.reverse_reverse]
                  rw [find_tree_append]
                  rw [hftb]
                  dsimp only
                  rw [hfsfx]
                  dsimp only
                  rw [htf]
                  dsimp only
                  rw [hgev]

/-- Witness for the amended C7 at the spec scenario: a = ["a"], b = ["z"]
after set(["a","b","c"], [1]); the hypotheses (prefix-disjointness, copy
success, hash consistency and collision freedom of the resulting state)
are discharged by computation. -/
theorem C7_witness :
    ¬ List.IsPrefix [[97]] [[122]] ∧
    ¬ List.IsPrefix [[122]] [[97]] ∧
    copy c7_u1 [[97]] [[122]] = (.ok (), c7_u2) ∧
    StoreWF c7_u2 ∧ StoreConsistent c7_u2 ∧
    (∃ src t2, c7_u2.current_stage_tree = some t2 ∧
      find_tree (get_staged_root c7_u1).2 (get_staged_root c7_u1).1 [[97]] = .ok src ∧
      find_tree c7_u2 t2 [[97]] = .ok src ∧
      descendNode c7_u2 { node_kind := NodeKind.NonLeaf, entry_hash := hash_tree t2 }
        [[122]] = .ok (get_non_leaf (hash_tree src)) ∧
      (∀ suffix v, suffix ≠ [] →
        (get c7_u2 ([[97]] ++ suffix)).1 = .ok v →
        (get c7_u2 ([[122]] ++ suffix)).1 = .ok v)) := by
  refine ⟨by decide, by decide, by decide, by decide, by decide, ?_⟩
  exact C7_copy_disjoint_law c7_u1 [[97]] [[122]] c7_u2 (by decide) (by decide) (by decide)
    (by decide) (by decide)

end Merkle
